import Mathlib

/-!
Verification development for the resume-parser repository.

The Python sources are shallowly embedded as Lean definitions:
`resume_parser.py` (text normalisation and the ten rule-engine field
extractors, including a faithful backtracking engine for the regular
expressions the extractors use), the merge / LLM-stage section of
`_process` in `app.py`, the batch loop of the `/parse` route, and the
response handling of `call_llm_extract` in `llm_helper.py`.

Machine strings are modelled as `List Char` internally, wrapped into
`String` at the extractor boundaries.  Python floats that carry field
confidences and year counts are modelled as rationals.
-/

/- ===================== character helpers ===================== -/

/-- Python `str` whitespace (`str.split()` / `str.strip()` default class),
restricted to the code points that can occur here; includes all ASCII
whitespace and the common Unicode space characters Python treats as space. -/
def isWS (c : Char) : Bool :=
  c = ' ' || c = '\t' || c = '\n' || c = '\x0b' || c = '\x0c' || c = '\r' ||
  c = Char.ofNat 28 || c = Char.ofNat 29 || c = Char.ofNat 30 || c = Char.ofNat 31 ||
  c = Char.ofNat 133 || c = Char.ofNat 160 || c = Char.ofNat 0x1680 ||
  (Char.ofNat 0x2000 ≤ c && c ≤ Char.ofNat 0x200a) ||
  c = Char.ofNat 0x2028 || c = Char.ofNat 0x2029 || c = Char.ofNat 0x202f ||
  c = Char.ofNat 0x205f || c = Char.ofNat 0x3000

/-- ASCII lower-casing, the fragment of Python `str.lower` the parser exercises. -/
def lowerAscii (c : Char) : Char :=
  if 'A' ≤ c && c ≤ 'Z' then Char.ofNat (c.toNat + 32) else c

/-- ASCII upper-casing. -/
def upperAscii (c : Char) : Char :=
  if 'a' ≤ c && c ≤ 'z' then Char.ofNat (c.toNat - 32) else c

def isAlphaAscii (c : Char) : Bool :=
  ('a' ≤ c && c ≤ 'z') || ('A' ≤ c && c ≤ 'Z')

def isUpperAscii (c : Char) : Bool := 'A' ≤ c && c ≤ 'Z'

def isDigitAscii (c : Char) : Bool := '0' ≤ c && c ≤ '9'

/-- Python regex `\w` on the ASCII fragment of the inputs. -/
def isWordChar (c : Char) : Bool :=
  ('a' ≤ c && c ≤ 'z') || ('A' ≤ c && c ≤ 'Z') || ('0' ≤ c && c ≤ '9') || c = '_'

/- ===================== list-of-char helpers ===================== -/

/-- Python `str.lstrip()` (default whitespace). -/
def stripL (l : List Char) : List Char := l.dropWhile isWS

/-- Python `str.strip()` (default whitespace). -/
def stripBoth (l : List Char) : List Char :=
  ((l.dropWhile isWS).reverse.dropWhile isWS).reverse

/-- Python `text.split('\n')` (keeps empty pieces). -/
def splitNl : List Char → List (List Char)
  | [] => [[]]
  | c :: cs =>
    if c = '\n' then [] :: splitNl cs
    else
      match splitNl cs with
      | [] => [[c]]
      | l :: rest => (c :: l) :: rest

/-- Auxiliary for `splitWs`: accumulates the current token (reversed). -/
def splitWsAux : List Char → List Char → List (List Char)
  | [], acc => if acc.isEmpty then [] else [acc.reverse]
  | c :: cs, acc =>
    if isWS c then
      if acc.isEmpty then splitWsAux cs [] else acc.reverse :: splitWsAux cs []
    else splitWsAux cs (c :: acc)

/-- Python `str.split()` with no argument: whitespace-separated tokens,
leading/trailing whitespace ignored, no empty tokens. -/
def splitWs (l : List Char) : List (List Char) := splitWsAux l []

/-- Python `sep.join(pieces)` for a one-character separator. -/
def joinSep (sep : Char) : List (List Char) → List Char
  | [] => []
  | [l] => l
  | l :: ls => l ++ sep :: joinSep sep ls

/-- Python `' '.join(tokens)`. -/
def joinSpace (ts : List (List Char)) : List Char := joinSep ' ' ts

/-- Python `'\n'.join(lines)`. -/
def joinNl (ls : List (List Char)) : List Char := joinSep '\n' ls

/-- Line-ending normalisation of `clean_text`:
`text.replace('\r\n','\n').replace('\r','\n')`. -/
def normNewlines : List Char → List Char
  | [] => []
  | '\r' :: '\n' :: rest => '\n' :: normNewlines rest
  | '\r' :: rest => '\n' :: normNewlines rest
  | c :: rest => c :: normNewlines rest

/-- The blank-collapsing loop of `clean_text`: lines are represented by their
whitespace-split token lists; a line is blank iff it has no tokens.  The
`Bool` argument is the `prev_empty` flag. -/
def collapseBlanks : List (List (List Char)) → Bool → List (List Char)
  | [], _ => []
  | toks :: rest, prevEmpty =>
    match toks with
    | [] => if prevEmpty then collapseBlanks rest true else [] :: collapseBlanks rest true
    | _ => joinSpace toks :: collapseBlanks rest false

/-- The consecutive-duplicate-removal loop of `clean_text`. -/
def dedupConsec : List (List Char) → List (List Char)
  | [] => []
  | [a] => [a]
  | a :: b :: rest =>
    if a = b then dedupConsec (b :: rest) else a :: dedupConsec (b :: rest)

/-- `clean_text` of resume_parser.py on character lists. -/
def cleanTextL (t : List Char) : List Char :=
  if t.isEmpty then []
  else
    let toklines := (splitNl (normNewlines t)).map splitWs
    let collapsed := collapseBlanks toklines false
    let deduped := dedupConsec collapsed
    stripBoth (joinNl deduped)

/-- `clean_text` of resume_parser.py: normalise line endings, strip and
whitespace-collapse each line, collapse runs of blank lines, drop consecutive
duplicate lines, strip the result. -/
def clean_text (s : String) : String := String.mk (cleanTextL s.data)

/- ===================== regex engine ===================== -/

/-- Character classes of the Python patterns used by resume_parser.py. -/
inductive CharClass where
  | single (c : Char)
  | range (lo hi : Char)
  | union (a b : CharClass)
  | compl (a : CharClass)
  | digit
  | wordc
  | space
  | dot
deriving Repr

/-- Membership in a character class (`dot` is `.` without DOTALL). -/
def CharClass.memb : CharClass → Char → Bool
  | .single a, c => c = a
  | .range lo hi, c => lo ≤ c && c ≤ hi
  | .union a b, c => a.memb c || b.memb c
  | .compl a, c => !(a.memb c)
  | .digit, c => isDigitAscii c
  | .wordc, c => isWordChar c
  | .space, c => isWS c
  | .dot, c => !(c = '\n')

/-- Class membership under an optional `re.IGNORECASE` flag: a character
matches if it or one of its ASCII case variants is in the class. -/
def CharClass.membCI (ci : Bool) (cc : CharClass) (c : Char) : Bool :=
  if ci then cc.memb c || cc.memb (lowerAscii c) || cc.memb (upperAscii c)
  else cc.memb c

/-- Regular-expression ASTs.  Bounded repetitions `{m,n}` are expanded into
`seq`/`opt` chains at construction time; `star` and `opt` carry a greediness
flag (`true` = greedy, Python default; `false` = lazy, for `+?`). -/
inductive Reg where
  | eps
  | cls (cc : CharClass)
  | seq (a b : Reg)
  | alt (a b : Reg)
  | star (r : Reg) (greedy : Bool)
  | opt (r : Reg) (greedy : Bool)
  | group (idx : Nat) (r : Reg)
  | wordB
  | bos
  | eos
deriving Repr

/-- Captured groups: newest binding first. -/
abbrev Caps := List (Nat × List Char)

/-- Backtracking matcher in continuation-passing style, mirroring the
leftmost / first-alternative / greedy semantics of Python `re`.  `prev` is
the character just before the current position (for `\b`), `rest` the
remaining input.  `fuel` bounds recursion depth; every call is made with
enough fuel that it never runs out on the inputs evaluated here. -/
def matchR (ci : Bool) :
    Nat → Reg → Option Char → List Char → Caps →
    (Option Char → List Char → Caps → Option (List Char × Caps)) →
    Option (List Char × Caps)
  | 0, _, _, _, _, _ => none
  | fuel+1, re, prev, rest, caps, k =>
    match re with
    | .eps => k prev rest caps
    | .cls cc =>
      match rest with
      | [] => none
      | c :: cs => if CharClass.membCI ci cc c then k (some c) cs caps else none
    | .seq a b =>
      matchR ci fuel a prev rest caps (fun p r cp => matchR ci fuel b p r cp k)
    | .alt a b =>
      match matchR ci fuel a prev rest caps k with
      | some res => some res
      | none => matchR ci fuel b prev rest caps k
    | .opt r g =>
      if g then
        match matchR ci fuel r prev rest caps k with
        | some res => some res
        | none => k prev rest caps
      else
        match k prev rest caps with
        | some res => some res
        | none => matchR ci fuel r prev rest caps k
    | .star r g =>
      if g then
        match matchR ci fuel r prev rest caps
            (fun p2 r2 c2 =>
              if r2.length < rest.length then matchR ci fuel (.star r g) p2 r2 c2 k
              else none) with
        | some res => some res
        | none => k prev rest caps
      else
        match k prev rest caps with
        | some res => some res
        | none =>
          matchR ci fuel r prev rest caps
            (fun p2 r2 c2 =>
              if r2.length < rest.length then matchR ci fuel (.star r g) p2 r2 c2 k
              else none)
    | .group i r =>
      matchR ci fuel r prev rest caps
        (fun p2 r2 c2 => k p2 r2 ((i, rest.take (rest.length - r2.length)) :: c2))
    | .wordB =>
      let before := match prev with | none => false | some c => isWordChar c
      let after := match rest with | [] => false | c :: _ => isWordChar c
      if before = after then none else k prev rest caps
    | .bos =>
      match prev with
      | none => k prev rest caps
      | some _ => none
    | .eos =>
      match rest with
      | [] => k prev rest caps
      | [c] => if c = '\n' then k prev rest caps else none
      | _ => none

/-- Depth bound that is comfortably sufficient for every pattern in the
source on an input of the given length. -/
def matchFuel (rest : List Char) : Nat := 200 * (rest.length + 4)

/-- Attempt a match anchored at the current position.  On success returns
(matched text, character preceding the new position, remaining input,
captured groups). -/
def tryMatchAt (ci : Bool) (re : Reg) (prev : Option Char) (rest : List Char) :
    Option (List Char × Option Char × List Char × Caps) :=
  match matchR ci (matchFuel rest) re prev rest [] (fun _ r c => some (r, c)) with
  | none => none
  | some (rest2, caps) =>
    let m := rest.take (rest.length - rest2.length)
    let p2 := match m.getLast? with | some c => some c | none => prev
    some (m, p2, rest2, caps)

/-- Scan for the leftmost match (`re.search`), returning matched text and
captures. -/
def searchFrom (ci : Bool) (re : Reg) :
    Nat → Option Char → List Char → Option (List Char × Caps)
  | 0, _, _ => none
  | fuel+1, prev, rest =>
    match tryMatchAt ci re prev rest with
    | some (m, _, _, caps) => some (m, caps)
    | none =>
      match rest with
      | [] => none
      | c :: cs => searchFrom ci re fuel (some c) cs

/-- `re.search(pattern, t)` as a Boolean. -/
def searchB (ci : Bool) (re : Reg) (t : List Char) : Bool :=
  (searchFrom ci re (t.length + 1) none t).isSome

/-- `re.search(pattern, t)` returning matched text and captures. -/
def searchCaps (ci : Bool) (re : Reg) (t : List Char) : Option (List Char × Caps) :=
  searchFrom ci re (t.length + 1) none t

/-- `re.match(pattern, t)` as a Boolean (anchored at the start only). -/
def matchStart (ci : Bool) (re : Reg) (t : List Char) : Bool :=
  (tryMatchAt ci re none t).isSome

/-- Non-overlapping scan (`re.findall` / `re.finditer`): after a non-empty
match continue at its end; after an empty match emit it and advance one
character. -/
def findallFrom (ci : Bool) (re : Reg) :
    Nat → Option Char → List Char → List (List Char × Caps)
  | 0, _, _ => []
  | fuel+1, prev, rest =>
    match tryMatchAt ci re prev rest with
    | some (m, p2, rest2, caps) =>
      if m.isEmpty then
        (m, caps) ::
          (match rest with
           | [] => []
           | c :: cs => findallFrom ci re fuel (some c) cs)
      else (m, caps) :: findallFrom ci re fuel p2 rest2
    | none =>
      match rest with
      | [] => []
      | c :: cs => findallFrom ci re fuel (some c) cs

/-- First binding of group `i`. -/
def capGet (caps : Caps) (i : Nat) : List Char :=
  match caps with
  | [] => []
  | (j, v) :: rest => if j = i then v else capGet rest i

/-- `re.findall` for a pattern without capturing groups: whole matches. -/
def findallW (ci : Bool) (re : Reg) (t : List Char) : List (List Char) :=
  (findallFrom ci re (t.length + 1) none t).map (fun mc => mc.1)

/-- `re.findall` for a pattern with exactly one capturing group. -/
def findall1 (ci : Bool) (re : Reg) (t : List Char) : List (List Char) :=
  (findallFrom ci re (t.length + 1) none t).map (fun mc => capGet mc.2 1)

/-- `re.findall` for a pattern with exactly two capturing groups. -/
def findall2 (ci : Bool) (re : Reg) (t : List Char) : List (List Char × List Char) :=
  (findallFrom ci re (t.length + 1) none t).map
    (fun mc => (capGet mc.2 1, capGet mc.2 2))

/-- `re.sub(pattern, '', t)`: delete every non-overlapping match. -/
def subAllFrom (ci : Bool) (re : Reg) : Nat → Option Char → List Char → List Char
  | 0, _, rest => rest
  | fuel+1, prev, rest =>
    match tryMatchAt ci re prev rest with
    | some (m, p2, rest2, _) =>
      if m.isEmpty then
        match rest with
        | [] => []
        | c :: cs => c :: subAllFrom ci re fuel (some c) cs
      else subAllFrom ci re fuel p2 rest2
    | none =>
      match rest with
      | [] => []
      | c :: cs => c :: subAllFrom ci re fuel (some c) cs

/-- `re.sub(pattern, '', t)`. -/
def subAll (ci : Bool) (re : Reg) (t : List Char) : List Char :=
  subAllFrom ci re (t.length + 1) none t

/- ===================== pattern constructors ===================== -/

def lit (c : Char) : Reg := .cls (.single c)

def litList : List Char → Reg
  | [] => .eps
  | c :: cs => .seq (lit c) (litList cs)

/-- Literal string pattern (each character matched exactly, or
case-insensitively when the matcher runs with `ci = true`). -/
def litStr (s : String) : Reg := litList s.data

def altListR : List Reg → Reg
  | [] => .eps
  | [r] => r
  | r :: rest => .alt r (altListR rest)

def unionL : List CharClass → CharClass
  | [] => .single (Char.ofNat 0)
  | [c] => c
  | c :: rest => .union c (unionL rest)

/-- `r{n}`. -/
def repN (r : Reg) : Nat → Reg
  | 0 => .eps
  | n+1 => .seq r (repN r n)

/-- Greedy optional chain used to expand `{lo, lo+extra}`. -/
def optChain (r : Reg) : Nat → Reg
  | 0 => .eps
  | n+1 => .opt (.seq r (optChain r n)) true

/-- `r{lo, lo+extra}` (greedy). -/
def repRange (r : Reg) (lo extra : Nat) : Reg := .seq (repN r lo) (optChain r extra)

/-- `r+` (greedy). -/
def plusG (r : Reg) : Reg := .seq r (.star r true)

/-- `r+?` (lazy). -/
def plusL (r : Reg) : Reg := .seq r (.star r false)

/-- `r{lo,}` (greedy). -/
def repMin (r : Reg) (lo : Nat) : Reg := .seq (repN r lo) (.star r true)

/-- `\b word \b` for a literal word. -/
def wordLit (s : String) : Reg := .seq .wordB (.seq (litStr s) .wordB)

/-- `\b(w1|w2|...)\b` used by the keyword searches (the group index is
irrelevant for Boolean searches and omitted). -/
def wordAlt (ws : List String) : Reg :=
  .seq .wordB (.seq (altListR (ws.map litStr)) .wordB)

/- ===================== the source's patterns ===================== -/

def apoChar : Char := Char.ofNat 39
def enDash : Char := Char.ofNat 0x2013
def emDash : Char := Char.ofNat 0x2014

def ccUp : CharClass := .range 'A' 'Z'
def ccLow : CharClass := .range 'a' 'z'

/-- `[\s.-]` of the phone patterns. -/
def ccPhoneSep : CharClass := unionL [.space, .single '.', .single '-']

/-- `[:\-]` of the experience patterns. -/
def ccColonDash : CharClass := unionL [.single ':', .single '-']

/-- `[-–]` of the date-range patterns. -/
def ccDashes : CharClass := unionL [.single '-', .single enDash]

/-- `[a-zA-Z0-9._%+-]` (e-mail local part). -/
def ccEmailLocal : CharClass :=
  unionL [.range 'a' 'z', .range 'A' 'Z', .range '0' '9',
          .single '.', .single '_', .single '%', .single '+', .single '-']

/-- `[a-zA-Z0-9.-]` (e-mail domain). -/
def ccEmailDomain : CharClass :=
  unionL [.range 'a' 'z', .range 'A' 'Z', .range '0' '9', .single '.', .single '-']

/-- extract_name blocklist
`\b(resume|cv|...|address)\b`, searched with `re.I`. -/
def patBlocklist : Reg :=
  wordAlt ["resume", "cv", "curriculum", "vitae", "contact", "profile", "summary",
           "objective", "university", "college", "school", "institute", "company",
           "inc", "corp", "llc", "ltd", "technologies", "solutions", "systems",
           "email", "phone", "address"]

/-- extract_name skip pattern `@|http|www|\d{7,}`. -/
def patContactInfo : Reg :=
  altListR [lit '@', litStr "http", litStr "www", repMin (.cls .digit) 7]

/-- extract_name word shape
`^[A-Z][a-z]+(?:['-][A-Z][a-z]+)?$|^[A-Z]\.?$` (used with `re.match`). -/
def patNameWord : Reg :=
  .alt
    (.seq .bos (.seq (.cls ccUp) (.seq (plusG (.cls ccLow))
      (.seq (.opt (.seq (.cls (unionL [.single apoChar, .single '-']))
                    (.seq (.cls ccUp) (plusG (.cls ccLow)))) true) .eos))))
    (.seq .bos (.seq (.cls ccUp) (.seq (.opt (lit '.') true) .eos)))

/-- extract_email pattern `\b[a-zA-Z0-9._%+-]+@[a-zA-Z0-9.-]+\.[a-zA-Z]{2,}\b`. -/
def patEmail : Reg :=
  .seq .wordB (.seq (plusG (.cls ccEmailLocal)) (.seq (lit '@')
    (.seq (plusG (.cls ccEmailDomain)) (.seq (lit '.')
      (.seq (repMin (.cls (unionL [.range 'a' 'z', .range 'A' 'Z'])) 2) .wordB)))))

/-- Tail of phone pattern 1 after the mandatory `\+`:
`\d{1,3}[\s.-]?\(?\d{1,4}\)?[\s.-]?\d{1,4}[\s.-]?\d{1,9}`. -/
def patPhoneIntlTail : Reg :=
  .seq (repRange (.cls .digit) 1 2)
    (.seq (.opt (.cls ccPhoneSep) true) (.seq (.opt (lit '(') true)
      (.seq (repRange (.cls .digit) 1 3) (.seq (.opt (lit ')') true)
        (.seq (.opt (.cls ccPhoneSep) true) (.seq (repRange (.cls .digit) 1 3)
          (.seq (.opt (.cls ccPhoneSep) true) (repRange (.cls .digit) 1 8))))))))

/-- phone pattern 1 (international)
`\+\d{1,3}[\s.-]?\(?\d{1,4}\)?[\s.-]?\d{1,4}[\s.-]?\d{1,9}`. -/
def patPhoneIntl : Reg := .seq (lit '+') patPhoneIntlTail

/-- phone pattern 2 (US) `\(?\d{3}\)?[\s.-]?\d{3}[\s.-]?\d{4}`. -/
def patPhoneUS : Reg :=
  .seq (.opt (lit '(') true) (.seq (repN (.cls .digit) 3)
    (.seq (.opt (lit ')') true) (.seq (.opt (.cls ccPhoneSep) true)
      (.seq (repN (.cls .digit) 3) (.seq (.opt (.cls ccPhoneSep) true)
        (repN (.cls .digit) 4))))))

/-- phone pattern 3 `\b\d{10,11}\b`. -/
def patPhoneTen : Reg :=
  .seq .wordB (.seq (repRange (.cls .digit) 10 1) .wordB)

/-- phone pattern 4 (Indian) `\d{5}[\s.-]\d{5}`. -/
def patPhoneIN : Reg :=
  .seq (repN (.cls .digit) 5) (.seq (.cls ccPhoneSep) (repN (.cls .digit) 5))

def phonePatterns : List Reg := [patPhoneIntl, patPhoneUS, patPhoneTen, patPhoneIN]

/-- `(\d+(?:\.\d+)?)` as group 1 of the experience patterns. -/
def numGroup : Reg :=
  .group 1 (.seq (plusG (.cls .digit))
    (.opt (.seq (lit '.') (plusG (.cls .digit))) true))

def starS : Reg := .star (.cls .space) true
def plusS : Reg := plusG (.cls .space)

/-- experience pattern 1
`(\d+(?:\.\d+)?)\s*\+?\s*years?\s+of\s+(?:work|professional|total)?\s*experience`. -/
def patExp1 : Reg :=
  .seq numGroup (.seq starS (.seq (.opt (lit '+') true) (.seq starS
    (.seq (litStr "year") (.seq (.opt (lit 's') true) (.seq plusS
      (.seq (litStr "of") (.seq plusS
        (.seq (.opt (altListR [litStr "work", litStr "professional", litStr "total"]) true)
          (.seq starS (litStr "experience")))))))))))

/-- experience pattern 2 `experience\s*[:\-]\s*(\d+(?:\.\d+)?)\s*\+?\s*years?`. -/
def patExp2 : Reg :=
  .seq (litStr "experience") (.seq starS (.seq (.cls ccColonDash) (.seq starS
    (.seq numGroup (.seq starS (.seq (.opt (lit '+') true) (.seq starS
      (.seq (litStr "year") (.opt (lit 's') true)))))))))

/-- experience pattern 3 `(\d+(?:\.\d+)?)\s*\+?\s*(?:yrs?|years?)\s+experience`. -/
def patExp3 : Reg :=
  .seq numGroup (.seq starS (.seq (.opt (lit '+') true) (.seq starS
    (.seq (.alt (.seq (litStr "yr") (.opt (lit 's') true))
                (.seq (litStr "year") (.opt (lit 's') true)))
      (.seq plusS (litStr "experience"))))))

/-- experience pattern 4 `total\s+experience\s*[:\-]?\s*(\d+(?:\.\d+)?)\s*years?`. -/
def patExp4 : Reg :=
  .seq (litStr "total") (.seq plusS (.seq (litStr "experience") (.seq starS
    (.seq (.opt (.cls ccColonDash) true) (.seq starS
      (.seq numGroup (.seq starS (.seq (litStr "year") (.opt (lit 's') true)))))))))

def expPatterns : List Reg := [patExp1, patExp2, patExp3, patExp4]

/-- `\b(present|current|till\s+now|ongoing)\b` (company "Present" marker, re.I). -/
def patPresentLong : Reg :=
  .seq .wordB (.seq (altListR [litStr "present", litStr "current",
    .seq (litStr "till") (.seq plusS (litStr "now")), litStr "ongoing"]) .wordB)

/-- `\b(present|current)\b` (designation "Present" marker, re.I). -/
def patPresentShort : Reg :=
  .seq .wordB (.seq (altListR [litStr "present", litStr "current"]) .wordB)

/-- date clean-up `\b\w{3,4}\s+\d{4}\s*[-–]\s*(present|current|\d{4})\b` (re.I). -/
def patDateRange : Reg :=
  .seq .wordB (.seq (repRange (.cls .wordc) 3 1) (.seq plusS
    (.seq (repN (.cls .digit) 4) (.seq starS (.seq (.cls ccDashes) (.seq starS
      (.seq (altListR [litStr "present", litStr "current", repN (.cls .digit) 4])
        .wordB)))))))

/-- job-title keyword list `\b(engineer|developer|...)\b` (re.I). -/
def patTitleKw : Reg :=
  wordAlt ["engineer", "developer", "analyst", "manager", "director", "lead",
           "senior", "junior", "associate", "specialist", "consultant",
           "architect", "designer", "coordinator", "executive", "officer",
           "administrator", "supervisor", "intern", "trainee"]

/-- company indicator list `\b(inc|corp|...)\b` (re.I). -/
def patCompanyInd : Reg :=
  wordAlt ["inc", "corp", "corporation", "company", "ltd", "llc", "co",
           "limited", "technologies", "solutions", "systems", "group",
           "services", "consulting", "pvt"]

/-- `(.+?)\s+at\s+(.+)` (re.I). -/
def patAt : Reg :=
  .seq (.group 1 (plusL (.cls .dot))) (.seq plusS (.seq (litStr "at")
    (.seq plusS (.group 2 (plusG (.cls .dot))))))

/-- title clean-up `\b\w{3}\s+\d{4}\s*[-–]\s*\w+\b` (no flags). -/
def patTitleDate : Reg :=
  .seq .wordB (.seq (repN (.cls .wordc) 3) (.seq plusS
    (.seq (repN (.cls .digit) 4) (.seq starS (.seq (.cls ccDashes) (.seq starS
      (.seq (plusG (.cls .wordc)) .wordB)))))))

/-- city fallback `\b([A-Z][a-z]+(?:\s+[A-Z][a-z]+)?),\s*([A-Z][a-z]+)`. -/
def patCityState : Reg :=
  .seq .wordB (.seq (.group 1 (.seq (.cls ccUp) (.seq (plusG (.cls ccLow))
      (.opt (.seq plusS (.seq (.cls ccUp) (plusG (.cls ccLow)))) true))))
    (.seq (lit ',') (.seq starS (.group 2 (.seq (.cls ccUp) (plusG (.cls ccLow)))))))

/-- state fallback `\b[A-Z][a-z]+(?:\s+[A-Z][a-z]+)?,\s*([A-Z][a-z]+(?:\s+[A-Z][a-z]+)?)`. -/
def patStateLoc : Reg :=
  .seq .wordB (.seq (.cls ccUp) (.seq (plusG (.cls ccLow))
    (.seq (.opt (.seq plusS (.seq (.cls ccUp) (plusG (.cls ccLow)))) true)
      (.seq (lit ',') (.seq starS
        (.group 1 (.seq (.cls ccUp) (.seq (plusG (.cls ccLow))
          (.opt (.seq plusS (.seq (.cls ccUp) (plusG (.cls ccLow)))) true)))))))))

/- ===================== string utilities used by the extractors ===================== -/

/-- Python `haystack.find(needle)`, position of the first occurrence. -/
def findSubFrom : List Char → List Char → Nat → Option Nat
  | [], needle, i => if needle.isEmpty then some i else none
  | c :: cs, needle, i =>
    if needle.isPrefixOf (c :: cs) then some i else findSubFrom cs needle (i + 1)

/-- Python `needle in haystack`. -/
def containsSub (t sub : List Char) : Bool := (findSubFrom t sub 0).isSome

/-- Prefix of `t` before the first occurrence of `sub` (Python
`t.split(sub)[0]`). -/
def takeBeforeSub : List Char → List Char → List Char
  | [], _ => []
  | c :: cs, sub =>
    if sub.isPrefixOf (c :: cs) then [] else c :: takeBeforeSub cs sub

/-- Python `str.title()` on the ASCII fragment: the `Bool` says whether the
previous character was alphabetic. -/
def titleAsciiL : List Char → Bool → List Char
  | [], _ => []
  | c :: cs, prevAlpha =>
    if isAlphaAscii c then
      (if prevAlpha then lowerAscii c else upperAscii c) :: titleAsciiL cs true
    else c :: titleAsciiL cs false

/-- Python `str.title()`. -/
def pyTitle (s : String) : String := String.mk (titleAsciiL s.data false)

/-- The stripped non-blank lines of a text
(`[l.strip() for l in text.split('\n') if l.strip()]`). -/
def nonBlankStripped (t : List Char) : List (List Char) :=
  ((splitNl t).map stripBoth).filter (fun l => !l.isEmpty)

def digitsToNat (l : List Char) : Nat :=
  l.foldl (fun n c => 10 * n + (c.toNat - 48)) 0

/-- Python `float()` on a string of shape `\d+(\.\d+)?`, as the exact
rational `intpart + fracpart / 10^k`. -/
def parseFloatQ (g : List Char) : ℚ :=
  let ip := g.takeWhile (fun c => c != '.')
  let fp := (g.dropWhile (fun c => c != '.')).drop 1
  mkRat (digitsToNat ip * 10 ^ fp.length + digitsToNat fp) (10 ^ fp.length)

/- ===================== the ten field extractors ===================== -/

def nameSuffixWords : List (List Char) := ["Jr".data, "Sr".data, "II".data, "III".data]

/-- The line scan of `extract_name`. -/
def extractNameLoop : List (List Char) → Option (List Char)
  | [] => none
  | line :: rest =>
    if searchB true patBlocklist line then extractNameLoop rest
    else if searchB false patContactInfo line then extractNameLoop rest
    else
      let words := splitWs line
      if 2 ≤ words.length ∧ words.length ≤ 4 then
        if words.all (fun w => matchStart false patNameWord w || nameSuffixWords.contains w) then
          some line
        else extractNameLoop rest
      else extractNameLoop rest

/-- `extract_name` of resume_parser.py. -/
def extract_name (s : String) : Option String :=
  let lines := (nonBlankStripped s.data).take 15
  (extractNameLoop lines).map String.mk

/-- The match validation of `extract_email` (consecutive-dot check via the
domain containing a dot, minimum length 6). -/
def extractEmailLoop : List (List Char) → Option (List Char)
  | [] => none
  | m :: rest =>
    let email := stripBoth (m.map lowerAscii)
    let domain := (email.dropWhile (fun c => c != '@')).drop 1
    if domain.contains '.' ∧ 6 ≤ email.length then some email
    else extractEmailLoop rest

/-- `extract_email` of resume_parser.py. -/
def extract_email (s : String) : Option String :=
  (extractEmailLoop (findallW false patEmail s.data)).map String.mk

def digitOrPlus (c : Char) : Bool := isDigitAscii c || c = '+'

def startsPlus : List Char → Bool
  | [] => false
  | c :: _ => c = '+'

/-- The per-candidate normalisation and acceptance of `extract_phone` /
`extract_alternate_phone`: strip to digits and `+`, accept when 10–15
digits, add a `+1` for bare 10-digit numbers and a `+` when absent. -/
def acceptPhone (m : List Char) : Option (List Char) :=
  let normalized := m.filter digitOrPlus
  let digits := normalized.filter isDigitAscii
  if 10 ≤ digits.length ∧ digits.length ≤ 15 then
    if digits.length = 10 ∧ !startsPlus normalized then some ('+' :: '1' :: digits)
    else if !startsPlus normalized then some ('+' :: digits)
    else some normalized
  else none

/-- All phone-shaped candidates in source order (patterns outer, matches
inner, exactly as the loops in the source). -/
def phoneCandidates (t : List Char) : List (List Char) :=
  (phonePatterns.map (fun p => findallW false p t)).flatten

def firstAcceptPhone : List (List Char) → Option (List Char)
  | [] => none
  | m :: rest =>
    match acceptPhone m with
    | some v => some v
    | none => firstAcceptPhone rest

/-- `extract_phone` of resume_parser.py. -/
def extract_phone (s : String) : Option String :=
  (firstAcceptPhone (phoneCandidates s.data)).map String.mk

/-- The deduplicating accumulation of `extract_alternate_phone`. -/
def collectPhones : List (List Char) → List (List Char) → List (List Char)
  | [], acc => acc.reverse
  | m :: rest, acc =>
    match acceptPhone m with
    | some p => if acc.contains p then collectPhones rest acc else collectPhones rest (p :: acc)
    | none => collectPhones rest acc

/-- `extract_alternate_phone` of resume_parser.py. -/
def extract_alternate_phone (s : String) : Option String :=
  match collectPhones (phoneCandidates s.data) [] with
  | _ :: p2 :: _ => some (String.mk p2)
  | _ => none

/-- Header-line recognition of `extract_section`: the stripped lower-cased
line equals the header or starts with it followed by `:` or a space. -/
def headerLineTest (header line : List Char) : Bool :=
  let ll := (stripBoth line).map lowerAscii
  ll == header || (header ++ [':']).isPrefixOf ll || (header ++ [' ']).isPrefixOf ll

def findLine (header : List Char) : List (List Char) → Option (List Char)
  | [] => none
  | line :: rest => if headerLineTest header line then some line else findLine header rest

def nextHeadersList : List String :=
  ["education", "experience", "skills", "projects", "certification",
   "summary", "objective", "contact"]

/-- Position of the nearest following section header inside `remaining`
(the inner loop of `extract_section`). -/
def nextHeaderMin (remaining : List Char) (h : List Char) :
    List String → Nat → Nat
  | [], acc => acc
  | nh :: rest, acc =>
    if nh.data == h then nextHeaderMin remaining h rest acc
    else
      match findLine nh.data (splitNl remaining) with
      | none => nextHeaderMin remaining h rest acc
      | some nline =>
        match findSubFrom remaining nline 0 with
        | some p => nextHeaderMin remaining h rest (if p < acc then p else acc)
        | none => nextHeaderMin remaining h rest acc

/-- One header's attempt in `extract_section`. -/
def sectionForHeader (t : List Char) (h : List Char) (window : Nat) :
    Option (List Char) :=
  match findLine h (splitNl t) with
  | none => none
  | some line =>
    let startPos := (findSubFrom t line 0).getD 0
    let lineEnd :=
      match findSubFrom (t.drop startPos) ['\n'] 0 with
      | some k => startPos + k
      | none => t.length
    let remaining := (t.drop (lineEnd + 1)).take window
    let minNext := nextHeaderMin remaining h nextHeadersList remaining.length
    some (stripBoth (remaining.take minNext))

/-- `extract_section` of resume_parser.py (window 1500 at every call site). -/
def extract_section (t : List Char) : List String → Nat → Option (List Char)
  | [], _ => none
  | h :: hs, window =>
    match sectionForHeader t h.data window with
    | some r => some r
    | none => extract_section t hs window

/-- The `if not section: section = text` fallback the callers apply. -/
def sectionOrText (t : List Char) (headers : List String) : List Char :=
  match extract_section t headers 1500 with
  | some sec => if sec.isEmpty then t else sec
  | none => t

def degreesList : List (String × List String) :=
  [("PhD", ["phd", "ph.d", "ph d", "doctorate", "doctor of philosophy", "doctoral"]),
   ("Masters", ["master", "masters", "mba", "ms", "m.s", "msc", "m.sc", "mtech", "m.tech", "ma", "m.a"]),
   ("Bachelors", ["bachelor", "bachelors", "btech", "b.tech", "be", "b.e", "bs", "b.s", "bsc", "b.sc", "ba", "b.a", "bcom", "b.com"]),
   ("Diploma", ["diploma", "dip", "polytechnic"]),
   ("Associate", ["associate", "assoc"])]

def qualLoop (lower : List Char) : List (String × List String) → Option String
  | [] => none
  | (name, kws) :: rest =>
    if kws.any (fun kw => searchB false (wordLit kw) lower) then some name
    else qualLoop lower rest

/-- `extract_qualification` of resume_parser.py. -/
def extract_qualification (s : String) : Option String :=
  let t := s.data
  let edu := sectionOrText t ["education", "academic", "qualifications"]
  qualLoop (edu.map lowerAscii) degreesList

def expScan : List (List Char) → Option ℚ
  | [] => none
  | g :: rest =>
    let years := parseFloatQ g
    if 0 < years ∧ years ≤ 50 then some years else expScan rest

def expLoop (t : List Char) : List Reg → Option ℚ
  | [] => none
  | p :: rest =>
    match expScan (findall1 true p t) with
    | some y => some y
    | none => expLoop t rest

/-- `extract_experience` of resume_parser.py. -/
def extract_experience (s : String) : Option ℚ := expLoop s.data expPatterns

/-- `_looks_like_company` of resume_parser.py. -/
def looksLikeCompany (l : List Char) : Bool :=
  if l.isEmpty ∨ l.length < 2 ∨ 100 < l.length then false
  else if searchB true patCompanyInd l then true
  else
    let words := splitWs l
    if 1 ≤ words.length ∧ words.length ≤ 6 then
      match l with
      | c :: _ => isUpperAscii c
      | [] => false
    else false

def sepStrings : List (List Char) :=
  [" at ".data, " | ".data, " - ".data, [' ', emDash, ' '], [' ', enDash, ' ']]

def sepLoop (line : List Char) : List (List Char) → Option (List Char)
  | [] => none
  | sep :: rest =>
    if containsSub line sep then
      let title := stripBoth (takeBeforeSub line sep)
      if title.length < 80 ∧ !title.isEmpty then some title else sepLoop line rest
    else sepLoop line rest

/-- `_extract_title_from_line` of resume_parser.py. -/
def extractTitleFromLine (line : List Char) : Option (List Char) :=
  match sepLoop line sepStrings with
  | some t => some t
  | none =>
    if line.length < 80 then
      let cleaned := stripBoth (subAll false patTitleDate line)
      if cleaned.isEmpty then none else some cleaned
    else none

def offsetsRange : List Int := [-3, -2, -1, 0, 1, 2, 3]

/-- Offset scan around a "Present" line in `extract_current_company`. -/
def companyOffsetLoop (lines : List (List Char)) (i : Nat) : List Int → Option (List Char)
  | [] => none
  | off :: rest =>
    let idx : Int := (i : Int) + off
    if 0 ≤ idx ∧ idx < (lines.length : Int) then
      let cand := (lines.get? idx.toNat).getD []
      let cand2 := stripBoth (subAll true patDateRange cand)
      if !searchB true patTitleKw cand2 && looksLikeCompany cand2 then some cand2
      else companyOffsetLoop lines i rest
    else companyOffsetLoop lines i rest

def companyPresentLoop (lines : List (List Char)) : List (Nat × List Char) → Option (List Char)
  | [] => none
  | (i, line) :: rest =>
    if searchB true patPresentLong line then
      match companyOffsetLoop lines i offsetsRange with
      | some c => some c
      | none => companyPresentLoop lines rest
    else companyPresentLoop lines rest

/-- The `Title at Company` fallback of `extract_current_company`. -/
def companyAtLoop : List (List Char) → Option (List Char)
  | [] => none
  | line :: rest =>
    match searchCaps true patAt line with
    | some (_, caps) =>
      let titlePart := stripBoth (capGet caps 1)
      let companyPart := stripBoth (capGet caps 2)
      if searchB true patTitleKw titlePart && looksLikeCompany companyPart then
        some companyPart
      else companyAtLoop rest
    | none => companyAtLoop rest

def knownCompanies : List String :=
  ["google", "microsoft", "amazon", "apple", "facebook", "meta", "netflix",
   "tesla", "ibm", "oracle", "adobe", "salesforce", "linkedin", "twitter"]

def companyKnownLoop (tLower : List Char) : List String → Option String
  | [] => none
  | c :: rest =>
    if searchB false (wordLit c) tLower then some (pyTitle c)
    else companyKnownLoop tLower rest

/-- `extract_current_company` of resume_parser.py. -/
def extract_current_company (s : String) : Option String :=
  let t := s.data
  let sec := sectionOrText t ["experience", "work experience", "employment", "professional"]
  let lines := nonBlankStripped sec
  match companyPresentLoop lines (lines.take 30).enum with
  | some c => some (String.mk c)
  | none =>
    match companyAtLoop (lines.take 20) with
    | some c => some (String.mk c)
    | none => companyKnownLoop (t.map lowerAscii) knownCompanies

/-- Offset scan around a "Present" line in `extract_designation`. -/
def desigOffsetLoop (lines : List (List Char)) (i : Nat) : List Int → Option (List Char)
  | [] => none
  | off :: rest =>
    let idx : Int := (i : Int) + off
    if 0 ≤ idx ∧ idx < (lines.length : Int) then
      let cand := (lines.get? idx.toNat).getD []
      let cand2 := stripBoth (subAll true patDateRange cand)
      if !looksLikeCompany cand2 && searchB true patTitleKw cand2 then
        match extractTitleFromLine cand2 with
        | some title =>
          if title.length < 80 then some title else desigOffsetLoop lines i rest
        | none => desigOffsetLoop lines i rest
      else desigOffsetLoop lines i rest
    else desigOffsetLoop lines i rest

def desigPresentLoop (lines : List (List Char)) : List (Nat × List Char) → Option (List Char)
  | [] => none
  | (i, line) :: rest =>
    if searchB true patPresentShort line then
      match desigOffsetLoop lines i offsetsRange with
      | some c => some c
      | none => desigPresentLoop lines rest
    else desigPresentLoop lines rest

/-- The `Title at Company` fallback of `extract_designation`. -/
def desigAtLoop : List (List Char) → Option (List Char)
  | [] => none
  | line :: rest =>
    match searchCaps true patAt line with
    | some (_, caps) =>
      let titlePart := stripBoth (capGet caps 1)
      let companyPart := stripBoth (capGet caps 2)
      if searchB true patTitleKw titlePart && looksLikeCompany companyPart then
        match extractTitleFromLine titlePart with
        | some title => if title.length < 80 then some title else desigAtLoop rest
        | none => desigAtLoop rest
      else desigAtLoop rest
    | none => desigAtLoop rest

/-- The first-title-keyword-line fallback of `extract_designation`. -/
def desigLineLoop : List (List Char) → Option (List Char)
  | [] => none
  | line :: rest =>
    if !looksLikeCompany line && searchB true patTitleKw line then
      match extractTitleFromLine line with
      | some title => if title.length < 80 then some title else desigLineLoop rest
      | none => desigLineLoop rest
    else desigLineLoop rest

/-- `extract_designation` of resume_parser.py. -/
def extract_designation (s : String) : Option String :=
  let t := s.data
  let sec := sectionOrText t ["experience", "work experience", "employment"]
  let lines := nonBlankStripped sec
  match desigPresentLoop lines (lines.take 30).enum with
  | some c => some (String.mk c)
  | none =>
    match desigAtLoop (lines.take 20) with
    | some c => some (String.mk c)
    | none => (desigLineLoop (lines.take 15)).map String.mk

def citiesList : List String :=
  ["bangalore", "bengaluru", "mumbai", "delhi", "hyderabad", "chennai",
   "kolkata", "pune", "ahmedabad", "jaipur", "surat", "lucknow", "kanpur",
   "new york", "san francisco", "los angeles", "chicago", "boston", "seattle",
   "london", "paris", "berlin", "toronto", "sydney", "singapore"]

def statesList : List String :=
  ["california", "new york", "texas", "florida", "illinois", "washington",
   "maharashtra", "karnataka", "tamil nadu", "delhi", "uttar pradesh",
   "west bengal", "gujarat", "rajasthan", "telangana", "andhra pradesh"]

def gazLoop (tLower : List Char) : List String → Option String
  | [] => none
  | g :: rest =>
    if searchB false (wordLit g) tLower then some (pyTitle g)
    else gazLoop tLower rest

/-- The skills-section cut applied by `extract_city` / `extract_state`. -/
def skillsCut (t : List Char) : List Char :=
  match findSubFrom (t.map lowerAscii) "skills".data 0 with
  | some p => t.take p
  | none => t

/-- `extract_city` of resume_parser.py. -/
def extract_city (s : String) : Option String :=
  let searchT := skillsCut s.data
  match gazLoop (searchT.map lowerAscii) citiesList with
  | some c => some c
  | none =>
    match findall2 false patCityState searchT with
    | (g1, _) :: _ => some (String.mk g1)
    | [] => none

/-- `extract_state` of resume_parser.py. -/
def extract_state (s : String) : Option String :=
  let searchT := skillsCut s.data
  match gazLoop (searchT.map lowerAscii) statesList with
  | some st => some st
  | none =>
    match findall1 false patStateLoc searchT with
    | g :: _ => some (String.mk g)
    | [] => none

/-- The ten-field record produced by the rule engine. -/
structure RuleRecord where
  full_name : Option String
  email : Option String
  phone_number : Option String
  alternate_phone_number : Option String
  highest_qualification : Option String
  years_of_experience : Option ℚ
  current_company : Option String
  current_designation : Option String
  city : Option String
  state : Option String
deriving DecidableEq, Repr

/-- `parse_resume_text` of app.py (equally the field-assembly step of
`parse_resume` in resume_parser.py): the ten extractors applied to one text. -/
def parse_resume_text (s : String) : RuleRecord :=
  { full_name := extract_name s
    email := extract_email s
    phone_number := extract_phone s
    alternate_phone_number := extract_alternate_phone s
    highest_qualification := extract_qualification s
    years_of_experience := extract_experience s
    current_company := extract_current_company s
    current_designation := extract_designation s
    city := extract_city s
    state := extract_state s }

/- ===================== confidence merge policy (app.py `_process`) ===================== -/

/-- Scalar values that can populate a merged field. -/
inductive Val where
  | vstr (s : String)
  | vnum (q : ℚ)
  | vbool (b : Bool)
deriving DecidableEq, Repr

/-- What the model response holds for one field, as seen by the merge loop:
the key is absent or `null` (`missing`), a `{value, confidence}` object
(`scored`, with either component possibly absent), or any other bare JSON
value (`bare`). -/
inductive LLMField where
  | missing
  | scored (value : Option Val) (conf : Option ℚ)
  | bare (v : Val)
deriving DecidableEq, Repr

/-- The per-field body of the merge loop in `_process` (app.py):
`conf = float(llm_field.get('confidence') or 0.0)`; a scored value wins when
`conf >= threshold` and the value is not null; a bare non-null value wins
unconditionally; otherwise the rule-engine value is kept. -/
def mergeField (threshold : ℚ) (ruleVal : Option Val) (lf : LLMField) : Option Val :=
  match lf with
  | .missing => ruleVal
  | .scored v conf =>
    if threshold ≤ conf.getD 0 then
      match v with
      | some x => some x
      | none => ruleVal
    else ruleVal
  | .bare x => some x

/-- The ten field names, in the order the merge loop walks them. -/
def fieldNames : List String :=
  ["full_name", "email", "phone_number", "alternate_phone_number",
   "highest_qualification", "years_of_experience", "current_company",
   "current_designation", "city", "state"]

/-- A merged record as the dict built by the merge loop. -/
abbrev MergedRec := List (String × Option Val)

/-- The whole merge loop of `_process`. -/
def mergeRecord (threshold : ℚ) (parsed : String → Option Val)
    (llm : String → LLMField) : MergedRec :=
  fieldNames.map (fun f => (f, mergeField threshold (parsed f) (llm f)))

/-- Number of unknown (None) fields of a record. -/
def unknownCount (r : MergedRec) : Nat :=
  (r.filter (fun p => p.2.isNone)).length

/-- Result of the LLM-and-merge stage of `_process` for one document,
together with the number of model calls it performed. -/
structure ProcOut where
  merged : MergedRec
  llmCalls : Nat
deriving Repr

/-- The LLM stage plus merge of `_process` (app.py): when a model is
configured (`call_llm_extract is not None`) and the rate-limit semaphore is
acquired within its timeout, the model is called exactly once; a non-empty
list reply contributes its first element to the merge; in every other case
the rule-engine record passes through.  There is no second (re-consultation)
call anywhere in the route. -/
def processDocument (threshold : ℚ) (configured acquired : Bool)
    (llmOut : Option (List (String → LLMField)))
    (parsed : String → Option Val) : ProcOut :=
  let stage :=
    if configured then
      if acquired then
        (match llmOut with
         | some (d :: _) => some d
         | _ => none, 1)
      else (none, 0)
    else (none, 0)
  match stage with
  | (some d, calls) => { merged := mergeRecord threshold parsed d, llmCalls := calls }
  | (none, calls) =>
    { merged := fieldNames.map (fun f => (f, parsed f)), llmCalls := calls }

/- ===================== llm_helper.call_llm_extract response handling ===================== -/

/-- JSON values. -/
inductive Json where
  | null
  | jbool (b : Bool)
  | num (q : ℚ)
  | str (s : String)
  | arr (xs : List Json)
  | obj (kvs : List (String × Json))
deriving Repr

def jLookup : List (String × Json) → String → Option Json
  | [], _ => none
  | (k, v) :: rest, key => if k = key then some v else jLookup rest key

/-- Python truthiness of a JSON value. -/
def jTruthy : Json → Bool
  | .null => false
  | .jbool b => b
  | .num q => !(q = 0 : Bool)
  | .str s => !s.isEmpty
  | .arr xs => !xs.isEmpty
  | .obj kvs => !kvs.isEmpty

/-- Python `a or b` over optional JSON values (`None` is falsy). -/
def pyOr (a b : Option Json) : Option Json :=
  match a with
  | some v => if jTruthy v then some v else b
  | none => b

/-- What survives `if not content: return None` followed by
`content.strip()`-based processing: only a non-empty string; a falsy value
returns None, a truthy non-string raises (absorbed by the outer handler). -/
def usableContent : Option Json → Option String
  | some (.str s) => if s.isEmpty then none else some s
  | _ => none

/-- The assistant-content extraction of `call_llm_extract`
(`j['choices'][0].get('message', {}).get('content') or
j['choices'][0].get('text')`, else `j.get('text')`); every path on which
Python would raise (absorbed by the enclosing `except`) yields `none`. -/
def extractContent (j : Json) : Option String :=
  match j with
  | .obj kvs =>
    match jLookup kvs "choices" with
    | some (.arr (c0 :: _)) =>
      match c0 with
      | .obj ckvs =>
        match jLookup ckvs "message" with
        | none => usableContent (pyOr none (jLookup ckvs "text"))
        | some (.obj mkvs) =>
          usableContent (pyOr (jLookup mkvs "content") (jLookup ckvs "text"))
        | some _ => none
      | _ => none
    | some (.arr []) => usableContent (jLookup kvs "text")
    | some (.str s) => if s.isEmpty then usableContent (jLookup kvs "text") else none
    | some (.obj o) => if o.isEmpty then usableContent (jLookup kvs "text") else none
    | some _ => none
    | none => usableContent (jLookup kvs "text")
  | _ => none

def backtickChar : Char := Char.ofNat 96

def fenceMark : List Char := [backtickChar, backtickChar, backtickChar]

/-- The code-fence stripping of `call_llm_extract`:
`content.split('```')[1].strip()` when content starts with a fence. -/
def stripFences (l : List Char) : List Char :=
  if fenceMark.isPrefixOf l then stripBoth (takeBeforeSub (l.drop 3) fenceMark)
  else l

/-- Outcome of the HTTP POST as the surrounding `try` observes it: a raised
transport error, or a response with a status code and a body that either
parses as JSON or does not (`r.json()` raising). -/
inductive NetOutcome where
  | transportError
  | response (status : Nat) (body : Option Json)

/-- httpx `raise_for_status` raises exactly on non-2xx statuses. -/
def statusSuccess (s : Nat) : Bool := 200 ≤ s && s < 300

/-- `call_llm_extract` of llm_helper.py from the POST onwards.  `apiKey` is
the key after the stored-key / environment fallbacks (`none` = absent or
empty, which returns early); `loads` is the outcome of `json.loads` on the
content string (`none` = parse failure); a top-level object is wrapped into
a one-element array, any other parse is returned as is. -/
def call_llm_extract (apiKey : Option String) (loads : String → Option Json)
    (net : NetOutcome) : Option Json :=
  match apiKey with
  | none => none
  | some _ =>
    match net with
    | .transportError => none
    | .response status body =>
      if !statusSuccess status then none
      else
        match body with
        | none => none
        | some j =>
          match extractContent j with
          | none => none
          | some content =>
            let c := stripFences (stripBoth content.data)
            match loads (String.mk c) with
            | none => none
            | some (.obj kvs) => some (.arr [.obj kvs])
            | some p => some p

/- ===================== batch loop of the /parse route ===================== -/

/-- A submitted document, identified by its filename; the behaviour of its
processing is abstracted by the `Except`-valued pipeline argument below. -/
structure Doc where
  filename : String
deriving DecidableEq, Repr

/-- The record written by the `except` branch of `_process`: the failure
marker string in `full_name`, every other field None. -/
def errorRecord (filename : String) : MergedRec :=
  ("full_name", some (.vstr ("Error: " ++ filename))) ::
    (fieldNames.drop 1).map (fun f => (f, none))

/-- One `_process` call: the pipeline body either completes with a record or
raises, in which case the handler substitutes the error record. -/
def processOrError (p : Doc → Except String MergedRec) (d : Doc) : MergedRec :=
  match p d with
  | .ok r => r
  | .error _ => errorRecord d.filename

def chunksOfAux (n : Nat) : Nat → List α → List (List α)
  | 0, _ => []
  | _, [] => []
  | fuel+1, l => l.take n :: chunksOfAux n fuel (l.drop n)

/-- `range(0, total, batch_size)` chunking of the batch loop. -/
def chunksOf (n : Nat) (l : List α) : List (List α) := chunksOfAux n l.length l

/-- Index-addressed writes into the `results` list (`results[idx] = ...`). -/
def applyWrites (writes : List (Nat × α)) (res : List (Option α)) : List (Option α) :=
  writes.foldl (fun r w => r.set w.1 (some w.2)) res

/-- The batch loop of the `/parse` route: `results = [None] * len(files)`;
the files are chunked, each chunk's documents are processed (worker pool)
and each result is written at the document's original index. -/
def runBatch (p : Doc → Except String MergedRec) (docs : List Doc)
    (batchSize : Nat) : List (Option MergedRec) :=
  let writes :=
    ((chunksOf batchSize docs.enum).map
      (fun chunk => chunk.map (fun idxd => (idxd.1, processOrError p idxd.2)))).flatten
  applyWrites writes (docs.map (fun _ => none))

/- ===================== auxiliary definitions for the theorems ===================== -/

/-- The end-to-end scenario text of the specification. -/
def scenarioText : String :=
  "John Doe\njohn.doe@example.com\n+1 (555) 123-4567\n\nExperience\nSenior Developer at Acme Corp, Jan 2020 - Present\n\nEducation\nMaster of Science in Computer Science\n\n6 years of experience\n\nSpringfield, Illinois"

/-- A rule-engine result with every field unknown. -/
def parsedAllNone : String → Option Val := fun _ => none

/-- A model reply that answers nothing (every field null/absent). -/
def llmMissingAll : String → LLMField := fun _ => .missing

/-- Number of digit characters of a string. -/
def digitCount (s : String) : Nat := (s.data.filter isDigitAscii).length

/-- Text whose only phone-shaped candidate has exactly nine digits. -/
def nineDigitText : String := "+123 456 789"

/-- A batch pipeline whose body raises on `b.txt` and parses every other
document to an empty-but-successful record. -/
def pipelineB : Doc → Except String MergedRec :=
  fun d =>
    if d.filename = "b.txt" then .error "ValueError"
    else .ok (fieldNames.map (fun f => (f, none)))

def docsABC : List Doc := [{ filename := "a.txt" }, { filename := "b.txt" }, { filename := "c.txt" }]

/-- Every character class occurring in `re` accepts only characters
satisfying `P` (under the given ignore-case flag). -/
def Reg.onlyChars (ci : Bool) (P : Char → Bool) : Reg → Prop
  | .eps => True
  | .cls cc => ∀ c, CharClass.membCI ci cc c = true → P c = true
  | .seq a b => a.onlyChars ci P ∧ b.onlyChars ci P
  | .alt a b => a.onlyChars ci P ∧ b.onlyChars ci P
  | .star r _ => r.onlyChars ci P
  | .opt r _ => r.onlyChars ci P
  | .group _ r => r.onlyChars ci P
  | .wordB => True
  | .bos => True
  | .eos => True

/-- Characters other than `+` that the tail of the international phone
pattern (and the whole of the other three patterns) can consume. -/
def phoneTailChar (c : Char) : Bool :=
  isDigitAscii c || isWS c || c = '.' || c = '-' || c = '(' || c = ')'

/- ===================== clean_text characterisation (definitions) ===================== -/

/-- A line as `clean_text` emits it: the space-join of a list of non-empty,
whitespace-free tokens (the empty line arising from the empty token list). -/
def GoodLine (l : List Char) : Prop :=
  ∃ toks, (∀ tk ∈ toks, tk ≠ [] ∧ ∀ c ∈ tk, isWS c = false) ∧ l = joinSpace toks

/-- Leading blank lines removed. -/
def dropLeadEmp (ls : List (List Char)) : List (List Char) :=
  ls.dropWhile (fun l => l.isEmpty)

/-- Trailing blank lines removed. -/
def dropTrailEmp (ls : List (List Char)) : List (List Char) :=
  (ls.reverse.dropWhile (fun l => l.isEmpty)).reverse

/-- The line list `clean_text` builds before joining and stripping. -/
def canonLines (t : List Char) : List (List Char) :=
  dedupConsec (collapseBlanks ((splitNl (normNewlines t)).map splitWs) false)

set_option maxRecDepth 4000000
set_option maxHeartbeats 2000000

/-- C1 counterexample. -/
theorem c1_counterexample :
    unknownCount (processDocument (mkRat 4 5) true true (some [llmMissingAll]) parsedAllNone).merged = 10 ∧
    (processDocument (mkRat 4 5) true true (some [llmMissingAll]) parsedAllNone).llmCalls = 1 ∧
    (processDocument (mkRat 4 5) true true (some [llmMissingAll]) parsedAllNone).llmCalls ≠ 2 := by
  refine ⟨by decide, by decide, by decide⟩

/-- C1 amended. -/
theorem c1_amended :
    ∀ (threshold : ℚ) (configured acquired : Bool)
      (llmOut : Option (List (String → LLMField))) (parsed : String → Option Val),
      (processDocument threshold configured acquired llmOut parsed).llmCalls =
        (if configured && acquired then 1 else 0) ∧
      (processDocument threshold configured acquired llmOut parsed).llmCalls ≤ 1 := by
  intro th c a o p
  cases c <;> cases a <;>
    simp only [processDocument, Bool.and_self, Bool.and_false, Bool.false_and] <;>
    (cases o with
     | none => simp
     | some l => cases l <;> simp)

/-- C2 counterexample. -/
theorem c2_counterexample :
    mergeField (mkRat 4 5) (some (Val.vstr "John Doe")) (LLMField.bare (Val.vstr "Jane"))
        = some (Val.vstr "Jane") ∧
    some (Val.vstr "Jane") ≠ some (Val.vstr "John Doe") ∧
    (∀ v conf, LLMField.bare (Val.vstr "Jane") ≠ LLMField.scored v conf) := by
  refine ⟨rfl, by decide, ?_⟩
  intro v conf h
  exact LLMField.noConfusion h

/-- C2 amended. -/
theorem c2_amended :
    ∀ (th : ℚ) (rv : Option Val) (lf : LLMField),
      (mergeField th rv lf ≠ rv →
        (∃ x conf, lf = .scored (some x) conf ∧ th ≤ conf.getD 0 ∧ mergeField th rv lf = some x) ∨
        (∃ x, lf = .bare x ∧ mergeField th rv lf = some x)) ∧
      (∀ v, mergeField (mkRat 4 5) rv (.scored v (some (mkRat 79 100))) = rv) ∧
      (∀ x, mergeField (mkRat 4 5) none (.scored (some x) (some (mkRat 4 5))) = some x) := by
  intro th rv lf
  refine ⟨?_, ?_, ?_⟩
  · intro hne
    cases lf with
    | missing => exact absurd rfl hne
    | scored v conf =>
      by_cases hc : th ≤ conf.getD 0
      · cases v with
        | none => simp [mergeField, hc] at hne
        | some x => exact Or.inl ⟨x, conf, rfl, hc, by simp [mergeField, hc]⟩
      · simp [mergeField, hc] at hne
    | bare x => exact Or.inr ⟨x, rfl, rfl⟩
  · intro v
    simp only [mergeField, Option.getD_some]
    rw [if_neg (by decide : ¬((mkRat 4 5 : ℚ) ≤ mkRat 79 100))]
  · intro x
    simp only [mergeField, Option.getD_some]
    rw [if_pos (by decide : ((mkRat 4 5 : ℚ) ≤ mkRat 4 5))]

/-- C2 amended witness. -/
theorem c2_amended_witness :
    mergeField (mkRat 4 5) (some (Val.vstr "a")) (LLMField.bare (Val.vstr "b")) ≠ some (Val.vstr "a") ∧
    ((∃ x conf, LLMField.bare (Val.vstr "b") = LLMField.scored (some x) conf ∧
        (mkRat 4 5) ≤ conf.getD 0 ∧
        mergeField (mkRat 4 5) (some (Val.vstr "a")) (LLMField.bare (Val.vstr "b")) = some x) ∨
      (∃ x, LLMField.bare (Val.vstr "b") = LLMField.bare x ∧
        mergeField (mkRat 4 5) (some (Val.vstr "a")) (LLMField.bare (Val.vstr "b")) = some x)) :=
  ⟨by decide, (c2_amended (mkRat 4 5) (some (Val.vstr "a")) (LLMField.bare (Val.vstr "b"))).1 (by decide)⟩

/-- C3 counterexample. -/
theorem c3_counterexample :
    mergeField (mkRat 4 5) none
        (LLMField.scored (some (Val.vstr "(555) 123-4567")) (some (mkRat 9 10)))
        = some (Val.vstr "(555) 123-4567") ∧
    extract_phone "(555) 123-4567" = some "+15551234567" ∧
    ("(555) 123-4567" : String) ≠ "+15551234567" := by
  refine ⟨by decide, by decide, by decide⟩

/-- C3 amended. -/
theorem c3_amended :
    ∀ (th : ℚ) (rv : Option Val) (x : Val) (conf : Option ℚ),
      th ≤ conf.getD 0 →
      mergeField th rv (LLMField.scored (some x) conf) = some x := by
  intro th rv x conf h
  simp [mergeField, h]

/-- C3 amended witness. -/
theorem c3_amended_witness :
    mergeField (mkRat 4 5) none (LLMField.scored (some (Val.vstr "v")) (some 1)) = some (Val.vstr "v") :=
  c3_amended (mkRat 4 5) none (Val.vstr "v") (some 1) (by decide)

/-- Helper: every `Option` is `none` or `some`. -/
theorem option_none_or_some {α : Type} (o : Option α) : o = none ∨ ∃ v, o = some v := by
  cases o with
  | none => exact Or.inl rfl
  | some v => exact Or.inr ⟨v, rfl⟩

/-- C9. -/
theorem c9_extractors_total :
    ∀ s : String,
      (extract_name s = none ∨ ∃ v, extract_name s = some v) ∧
      (extract_email s = none ∨ ∃ v, extract_email s = some v) ∧
      (extract_phone s = none ∨ ∃ v, extract_phone s = some v) ∧
      (extract_alternate_phone s = none ∨ ∃ v, extract_alternate_phone s = some v) ∧
      (extract_qualification s = none ∨ ∃ v, extract_qualification s = some v) ∧
      (extract_experience s = none ∨ ∃ v, extract_experience s = some v) ∧
      (extract_current_company s = none ∨ ∃ v, extract_current_company s = some v) ∧
      (extract_designation s = none ∨ ∃ v, extract_designation s = some v) ∧
      (extract_city s = none ∨ ∃ v, extract_city s = some v) ∧
      (extract_state s = none ∨ ∃ v, extract_state s = some v) := by
  intro s
  exact ⟨option_none_or_some _, option_none_or_some _, option_none_or_some _,
    option_none_or_some _, option_none_or_some _, option_none_or_some _,
    option_none_or_some _, option_none_or_some _, option_none_or_some _,
    option_none_or_some _⟩

/-- Helper: the double filter of `acceptPhone` keeps exactly the digits. -/
theorem filter_digit_digitOrPlus (m : List Char) :
    (m.filter digitOrPlus).filter isDigitAscii = m.filter isDigitAscii := by
  induction m with
  | nil => rfl
  | cons c cs ih =>
    by_cases hd : isDigitAscii c
    · have hp : digitOrPlus c = true := by simp [digitOrPlus, hd]
      simp [List.filter_cons, hd, hp, ih]
    · by_cases hq : digitOrPlus c = true
      · simp [List.filter_cons, hd, hq, ih]
      · simp [List.filter_cons, hd, hq, ih]

/-- C5 amended part 1: acceptance is exactly a 10–15 digit count. -/
theorem c5_amended :
    (∀ m : List Char,
      (∃ v, acceptPhone m = some v) ↔
        (10 ≤ (m.filter isDigitAscii).length ∧ (m.filter isDigitAscii).length ≤ 15)) ∧
    extract_phone "(555) 123-4567" = some "+15551234567" := by
  constructor
  · intro m
    simp only [acceptPhone, filter_digit_digitOrPlus]
    by_cases h : 10 ≤ (m.filter isDigitAscii).length ∧ (m.filter isDigitAscii).length ≤ 15
    · refine iff_of_true ?_ h
      by_cases h10 : (m.filter isDigitAscii).length = 10 ∧ (!startsPlus (m.filter digitOrPlus)) = true
      · exact ⟨_, by rw [if_pos h, if_pos h10]⟩
      · by_cases hsp : (!startsPlus (m.filter digitOrPlus)) = true
        · exact ⟨_, by rw [if_pos h, if_neg h10, if_pos hsp]⟩
        · exact ⟨_, by rw [if_pos h, if_neg h10, if_neg hsp]⟩
    · simp [h]
  · decide

/-- C5 counterexample. -/
theorem c5_counterexample :
    phoneCandidates nineDigitText.data = ["+123 456 789".data] ∧
    digitCount "+123 456 789" = 9 ∧
    extract_phone nineDigitText = none := by
  refine ⟨by decide, by decide, by decide⟩

/-- C4 counterexample. -/
theorem c4_counterexample :
    extract_city scenarioText = some "Acme Corp" ∧
    extract_city scenarioText ≠ some "Springfield" := by
  have h : extract_city scenarioText = some "Acme Corp" := by decide
  exact ⟨h, by rw [h]; decide⟩

/-- C4 amended. -/
theorem c4_amended :
    clean_text scenarioText = scenarioText ∧
    parse_resume_text scenarioText =
      { full_name := some "John Doe"
        email := some "john.doe@example.com"
        phone_number := some "+15551234567"
        alternate_phone_number := none
        highest_qualification := some "Masters"
        years_of_experience := some 6
        current_company := some "Acme Corp, Jan 2020 - Present"
        current_designation := some "Senior Developer"
        city := some "Acme Corp"
        state := some "Illinois" } := by
  refine ⟨by decide, by decide⟩

/-- C7. -/
theorem c7_llm_failure_semantics :
    ∀ (key : String) (loads : String → Option Json),
      call_llm_extract (some key) loads .transportError = none ∧
      (∀ status body, statusSuccess status = false →
        call_llm_extract (some key) loads (.response status body) = none) ∧
      (∀ status, call_llm_extract (some key) loads (.response status none) = none) ∧
      (∀ status j, extractContent j = none →
        call_llm_extract (some key) loads (.response status (some j)) = none) ∧
      (∀ status j content, extractContent j = some content →
        loads (String.mk (stripFences (stripBoth content.data))) = none →
        call_llm_extract (some key) loads (.response status (some j)) = none) ∧
      (∀ status j content kvs, statusSuccess status = true →
        extractContent j = some content →
        loads (String.mk (stripFences (stripBoth content.data))) = some (.obj kvs) →
        call_llm_extract (some key) loads (.response status (some j)) = some (.arr [.obj kvs])) := by
  intro key loads
  refine ⟨rfl, ?_, ?_, ?_, ?_, ?_⟩
  · intro status body h
    simp [call_llm_extract, h]
  · intro status
    by_cases hs : statusSuccess status <;> simp [call_llm_extract, hs]
  · intro status j h
    by_cases hs : statusSuccess status <;> simp [call_llm_extract, hs, h]
  · intro status j content hc hl
    by_cases hs : statusSuccess status <;> simp [call_llm_extract, hs, hc, hl]
  · intro status j content kvs hs hc hl
    simp [call_llm_extract, hs, hc, hl]

/-- C7 witness. -/
theorem c7_llm_failure_semantics_witness :
    call_llm_extract (some "k") (fun _ => some (.obj []))
        (.response 200 (some (.obj [("text", Json.str "x")]))) = some (.arr [.obj []]) :=
  (c7_llm_failure_semantics "k" (fun _ => some (.obj []))).2.2.2.2.2 200
    (.obj [("text", Json.str "x")]) "x" [] rfl rfl rfl

/-- Helper: chunking and flattening restores the list. -/
theorem chunksOfAux_flatten {α : Type} (n : Nat) (hn : 0 < n) :
    ∀ (fuel : Nat) (l : List α), l.length ≤ fuel → (chunksOfAux n fuel l).flatten = l := by
  intro fuel
  induction fuel with
  | zero =>
    intro l hl
    have : l = [] := List.eq_nil_of_length_eq_zero (Nat.le_zero.mp hl)
    simp [this, chunksOfAux]
  | succ fuel ih =>
    intro l hl
    cases l with
    | nil => simp [chunksOfAux]
    | cons c cs =>
      have hdrop : ((c :: cs).drop n).length ≤ fuel := by
        rw [List.length_drop]
        have : (c :: cs).length ≤ fuel + 1 := hl
        omega
      calc (chunksOfAux n (fuel+1) (c :: cs)).flatten
          = (c :: cs).take n ++ (chunksOfAux n fuel ((c :: cs).drop n)).flatten := rfl
        _ = (c :: cs).take n ++ (c :: cs).drop n := by rw [ih _ hdrop]
        _ = c :: cs := List.take_append_drop _ _

theorem chunksOf_flatten {α : Type} (n : Nat) (hn : 0 < n) (l : List α) :
    (chunksOf n l).flatten = l :=
  chunksOfAux_flatten n hn l.length l (Nat.le_refl _)

/-- Helper: the index-addressed writes of one batch fill the middle segment. -/
theorem applyWrites_enumFrom {α : Type} (f : Doc → α) :
    ∀ (l : List Doc) (k : Nat) (res : List (Option α)), k + l.length ≤ res.length →
      applyWrites ((List.enumFrom k l).map (fun p => (p.1, f p.2))) res =
        res.take k ++ l.map (fun d => some (f d)) ++ res.drop (k + l.length) := by
  intro l
  induction l with
  | nil =>
    intro k res _
    simp [applyWrites, List.take_append_drop]
  | cons d ds ih =>
    intro k res hlen
    have hk : k < res.length := by
      simp only [List.length_cons] at hlen
      omega
    have step : applyWrites ((List.enumFrom k (d :: ds)).map (fun p => (p.1, f p.2))) res =
        applyWrites ((List.enumFrom (k+1) ds).map (fun p => (p.1, f p.2)))
          (res.set k (some (f d))) := by
      simp [applyWrites]
    have hlen2 : (k + 1) + ds.length ≤ (res.set k (some (f d))).length := by
      simp only [List.length_set]
      simp only [List.length_cons] at hlen
      omega
    rw [step, ih (k+1) (res.set k (some (f d))) hlen2]
    have hlt : (res.take k).length = k := by
      simp only [List.length_take]
      omega
    have htake : (res.set k (some (f d))).take (k+1) = res.take k ++ [some (f d)] := by
      calc (res.set k (some (f d))).take (k+1)
          = (res.take (k+1)).set k (some (f d)) := List.set_take
        _ = (res.take k ++ res[k]?.toList).set k (some (f d)) := by rw [List.take_succ]
        _ = res.take k ++ res[k]?.toList.set (k - (res.take k).length) (some (f d)) := by
            rw [List.set_append_right _ _ (Nat.le_of_eq hlt)]
        _ = res.take k ++ [some (f d)] := by
            rw [hlt, List.getElem?_eq_getElem hk, Nat.sub_self]
            rfl
    have hdrop : (res.set k (some (f d))).drop (k + 1 + ds.length) = res.drop (k + 1 + ds.length) := by
      rw [List.drop_set, if_pos (by omega)]
    rw [htake, hdrop]
    have harith : k + 1 + ds.length = k + (d :: ds).length := by
      simp only [List.length_cons]
      omega
    rw [harith]
    simp [List.append_assoc]

/-- Helper: the batch loop is pointwise independent processing. -/
theorem runBatch_eq_map (p : Doc → Except String MergedRec) (docs : List Doc)
    (bs : Nat) (hbs : 0 < bs) :
    runBatch p docs bs = docs.map (fun d => some (processOrError p d)) := by
  unfold runBatch
  rw [← List.map_flatten, chunksOf_flatten bs hbs]
  have henum : docs.enum = List.enumFrom 0 docs := rfl
  rw [henum]
  have := applyWrites_enumFrom (fun d => processOrError p d) docs 0
      (docs.map (fun _ => none)) (by simp)
  simp only [Nat.zero_add] at this
  rw [this]
  simp

/-- C6 amended. -/
theorem c6_amended :
    ∀ (pl : Doc → Except String MergedRec) (docs : List Doc) (bs : Nat), 0 < bs →
      (runBatch pl docs bs).length = docs.length ∧
      (∀ (i : Nat) (d : Doc), docs[i]? = some d →
        (runBatch pl docs bs)[i]? = some (some (processOrError pl d))) ∧
      (∀ d e, pl d = .error e → processOrError pl d = errorRecord d.filename) ∧
      (∀ d r, pl d = .ok r → processOrError pl d = r) := by
  intro pl docs bs hbs
  have h := runBatch_eq_map pl docs bs hbs
  refine ⟨?_, ?_, ?_, ?_⟩
  · rw [h]
    simp
  · intro i d hd
    rw [h, List.getElem?_map, hd]
    rfl
  · intro d e he
    simp [processOrError, he]
  · intro d r hr
    simp [processOrError, hr]

/-- C6 amended witness. -/
theorem c6_amended_witness :
    (runBatch pipelineB docsABC 50).length = docsABC.length ∧
    (runBatch pipelineB docsABC 50)[2]? =
      some (some (processOrError pipelineB { filename := "c.txt" })) :=
  ⟨(c6_amended pipelineB docsABC 50 (by decide)).1,
   (c6_amended pipelineB docsABC 50 (by decide)).2.1 2 { filename := "c.txt" } (by decide)⟩

/-- C6 counterexample. -/
theorem c6_counterexample :
    (runBatch pipelineB docsABC 50)[1]? = some (some (errorRecord "b.txt")) ∧
    (errorRecord "b.txt").head? = some ("full_name", some (Val.vstr "Error: b.txt")) ∧
    (some (Val.vstr "Error: b.txt") ≠ (none : Option Val)) ∧
    (runBatch pipelineB docsABC 50)[0]? = some (some (fieldNames.map (fun f => (f, none)))) := by
  refine ⟨by decide, by decide, by decide, by decide⟩

/-- Core engine soundness: a successful match consumes a prefix all of whose
characters lie in the classes of the pattern, and hands the corresponding
suffix to the continuation. -/
theorem matchR_consumes {ci : Bool} {P : Char → Bool} :
    ∀ (fuel : Nat) (re : Reg) (prev : Option Char) (rest : List Char) (caps : Caps)
      (k : Option Char → List Char → Caps → Option (List Char × Caps))
      (res : List Char × Caps),
      re.onlyChars ci P →
      matchR ci fuel re prev rest caps k = some res →
      ∃ n prev2 caps2, n ≤ rest.length ∧ (rest.take n).all P = true ∧
        k prev2 (rest.drop n) caps2 = some res := by
  intro fuel
  induction fuel with
  | zero =>
    intro re prev rest caps k res _ hm
    simp [matchR] at hm
  | succ fuel ih =>
    intro re prev rest caps k res honly hm
    cases re with
    | eps =>
      exact ⟨0, prev, caps, Nat.zero_le _, rfl, hm⟩
    | cls cc =>
      cases rest with
      | nil => simp [matchR] at hm
      | cons c cs =>
        simp only [matchR] at hm
        by_cases hmem : CharClass.membCI ci cc c = true
        · rw [if_pos hmem] at hm
          refine ⟨1, some c, caps, by simp, ?_, hm⟩
          simp [List.take, List.all_cons, honly c hmem]
        · rw [if_neg hmem] at hm
          exact absurd hm (by simp)
    | seq a b =>
      simp only [matchR] at hm
      obtain ⟨n1, p2, c2, hn1, hall1, hk1⟩ := ih a prev rest caps _ res honly.1 hm
      obtain ⟨n2, p3, c3, hn2, hall2, hk2⟩ := ih b p2 (rest.drop n1) c2 k res honly.2 hk1
      refine ⟨n1 + n2, p3, c3, ?_, ?_, ?_⟩
      · rw [List.length_drop] at hn2
        omega
      · rw [List.take_add, List.all_append]
        simp [hall1, hall2]
      · rw [← List.drop_drop]
        exact hk2
    | alt a b =>
      simp only [matchR] at hm
      cases ha : matchR ci fuel a prev rest caps k with
      | some res0 =>
        rw [ha] at hm
        cases hm
        exact ih a prev rest caps k res honly.1 ha
      | none =>
        rw [ha] at hm
        exact ih b prev rest caps k res honly.2 hm
    | star r g =>
      simp only [matchR] at hm
      cases g with
      | true =>
        simp only [if_pos rfl] at hm
        cases hstar : matchR ci fuel r prev rest caps
            (fun p2 r2 c2 =>
              if r2.length < rest.length then matchR ci fuel (.star r true) p2 r2 c2 k
              else none) with
        | some res0 =>
          rw [hstar] at hm
          cases hm
          obtain ⟨n1, p2, c2, hn1, hall1, hk1⟩ := ih r prev rest caps _ res honly hstar
          by_cases hlt : (rest.drop n1).length < rest.length
          · rw [if_pos hlt] at hk1
            obtain ⟨n2, p3, c3, hn2, hall2, hk2⟩ :=
              ih (.star r true) p2 (rest.drop n1) c2 k res honly hk1
            refine ⟨n1 + n2, p3, c3, ?_, ?_, ?_⟩
            · rw [List.length_drop] at hn2
              omega
            · rw [List.take_add, List.all_append]
              simp [hall1, hall2]
            · rw [← List.drop_drop]
              exact hk2
          · rw [if_neg hlt] at hk1
            exact absurd hk1 (by simp)
        | none =>
          rw [hstar] at hm
          exact ⟨0, prev, caps, Nat.zero_le _, rfl, hm⟩
      | false =>
        rw [if_neg (by simp)] at hm
        cases hk0 : k prev rest caps with
        | some res0 =>
          rw [hk0] at hm
          cases hm
          exact ⟨0, prev, caps, Nat.zero_le _, rfl, hk0⟩
        | none =>
          rw [hk0] at hm
          obtain ⟨n1, p2, c2, hn1, hall1, hk1⟩ := ih r prev rest caps _ res honly hm
          by_cases hlt : (rest.drop n1).length < rest.length
          · rw [if_pos hlt] at hk1
            obtain ⟨n2, p3, c3, hn2, hall2, hk2⟩ :=
              ih (.star r false) p2 (rest.drop n1) c2 k res honly hk1
            refine ⟨n1 + n2, p3, c3, ?_, ?_, ?_⟩
            · rw [List.length_drop] at hn2
              omega
            · rw [List.take_add, List.all_append]
              simp [hall1, hall2]
            · rw [← List.drop_drop]
              exact hk2
          · rw [if_neg hlt] at hk1
            exact absurd hk1 (by simp)
    | opt r g =>
      simp only [matchR] at hm
      cases g with
      | true =>
        simp only [if_pos rfl] at hm
        cases hr : matchR ci fuel r prev rest caps k with
        | some res0 =>
          rw [hr] at hm
          cases hm
          exact ih r prev rest caps k res honly hr
        | none =>
          rw [hr] at hm
          exact ⟨0, prev, caps, Nat.zero_le _, rfl, hm⟩
      | false =>
        rw [if_neg (by simp)] at hm
        cases hk0 : k prev rest caps with
        | some res0 =>
          rw [hk0] at hm
          cases hm
          exact ⟨0, prev, caps, Nat.zero_le _, rfl, hk0⟩
        | none =>
          rw [hk0] at hm
          exact ih r prev rest caps k res honly hm
    | group i r =>
      simp only [matchR] at hm
      obtain ⟨n1, p2, c2, hn1, hall1, hk1⟩ := ih r prev rest caps _ res honly hm
      exact ⟨n1, p2, (i, rest.take (rest.length - (rest.drop n1).length)) :: c2, hn1, hall1, hk1⟩
    | wordB =>
      simp only [matchR] at hm
      split at hm
      · exact absurd hm (by simp)
      · exact ⟨0, prev, caps, Nat.zero_le _, rfl, hm⟩
    | bos =>
      simp only [matchR] at hm
      cases prev with
      | none => exact ⟨0, none, caps, Nat.zero_le _, rfl, hm⟩
      | some c => simp at hm
    | eos =>
      simp only [matchR] at hm
      split at hm
      · exact ⟨0, prev, caps, Nat.zero_le _, rfl, hm⟩
      · split at hm
        · exact ⟨0, prev, caps, Nat.zero_le _, rfl, hm⟩
        · exact absurd hm (by simp)
      · exact absurd hm (by simp)

/-- Spec of `tryMatchAt`: the matched text is a prefix whose characters all
lie in the pattern's classes. -/
theorem tryMatchAt_matched {ci : Bool} {P : Char → Bool} {re : Reg}
    (honly : re.onlyChars ci P) {prev : Option Char} {rest m : List Char}
    {p2 : Option Char} {r2 : List Char} {caps : Caps}
    (h : tryMatchAt ci re prev rest = some (m, p2, r2, caps)) : m.all P = true := by
  unfold tryMatchAt at h
  cases hm : matchR ci (matchFuel rest) re prev rest []
      (fun _ r c => some (r, c)) with
  | none => rw [hm] at h; exact absurd h (by simp)
  | some rc =>
    rw [hm] at h
    obtain ⟨n, prev2, caps2, hn, hall, hk⟩ :=
      matchR_consumes (matchFuel rest) re prev rest [] _ rc honly hm
    have hrc : rc = (rest.drop n, caps2) := by
      cases hk
      rfl
    subst hrc
    simp only [Option.some.injEq, Prod.mk.injEq] at h
    have hm2 : m = rest.take (rest.length - (rest.drop n).length) := h.1.symm
    rw [hm2, List.length_drop, Nat.sub_sub_self hn]
    exact hall

/-- Inversion for a pattern of the form `c·tail`: the match starts with a
character of the class and continues with text drawn from the tail's
classes. -/
theorem matchR_seq_cls_inv {ci : Bool} {P : Char → Bool} {cc : CharClass} {tail : Reg}
    (honly : tail.onlyChars ci P) :
    ∀ (fuel : Nat) (prev : Option Char) (rest : List Char) (caps : Caps)
      (k : Option Char → List Char → Caps → Option (List Char × Caps))
      (res : List Char × Caps),
      matchR ci fuel (.seq (.cls cc) tail) prev rest caps k = some res →
      ∃ c cs n p2 c2, rest = c :: cs ∧ CharClass.membCI ci cc c = true ∧
        n ≤ cs.length ∧ (cs.take n).all P = true ∧ k p2 (cs.drop n) c2 = some res := by
  intro fuel
  cases fuel with
  | zero =>
    intro prev rest caps k res h
    simp [matchR] at h
  | succ fuel =>
    cases fuel with
    | zero =>
      intro prev rest caps k res h
      simp [matchR] at h
    | succ f =>
      intro prev rest caps k res h
      cases rest with
      | nil =>
        have hdef : matchR ci (f+2) (.seq (.cls cc) tail) prev [] caps k = none := rfl
        rw [hdef] at h
        exact absurd h (by simp)
      | cons c cs =>
        have hdef : matchR ci (f+2) (.seq (.cls cc) tail) prev (c :: cs) caps k =
            (if CharClass.membCI ci cc c = true then
              matchR ci (f+1) tail (some c) cs caps k
            else none) := rfl
        rw [hdef] at h
        by_cases hmem : CharClass.membCI ci cc c = true
        · rw [if_pos hmem] at h
          obtain ⟨n, p2, c2, hn, hall, hk⟩ :=
            matchR_consumes (f+1) tail (some c) cs caps k res honly h
          exact ⟨c, cs, n, p2, c2, rfl, hmem, hn, hall, hk⟩
        · rw [if_neg hmem] at h
          exact absurd h (by simp)

/-- Spec of `tryMatchAt` for a pattern of the form `c·tail` (the
international phone pattern). -/
theorem tryMatchAt_seq_cls {ci : Bool} {P : Char → Bool} {cc : CharClass} {tail : Reg}
    (honly : tail.onlyChars ci P) {prev : Option Char} {rest m : List Char}
    {p2 : Option Char} {r2 : List Char} {caps : Caps}
    (h : tryMatchAt ci (.seq (.cls cc) tail) prev rest = some (m, p2, r2, caps)) :
    ∃ c m', m = c :: m' ∧ CharClass.membCI ci cc c = true ∧ m'.all P = true := by
  unfold tryMatchAt at h
  cases hm : matchR ci (matchFuel rest) (.seq (.cls cc) tail) prev rest []
      (fun _ r c => some (r, c)) with
  | none => rw [hm] at h; exact absurd h (by simp)
  | some rc =>
    rw [hm] at h
    obtain ⟨c, cs, n, pp2, cc2, hrest, hmem, hn, hall, hk⟩ :=
      matchR_seq_cls_inv honly (matchFuel rest) prev rest [] _ rc hm
    subst hrest
    have hrc : rc = (cs.drop n, cc2) := by
      cases hk
      rfl
    subst hrc
    simp only [Option.some.injEq, Prod.mk.injEq] at h
    refine ⟨c, cs.take n, ?_, hmem, hall⟩
    have hlen : (c :: cs).length - (cs.drop n).length = n + 1 := by
      simp only [List.length_cons, List.length_drop]
      omega
    rw [← h.1, hlen]
    rfl

/-- Every match produced by the findall scan comes from some `tryMatchAt`. -/
theorem findallFrom_mem {ci : Bool} {re : Reg} :
    ∀ (fuel : Nat) (prev : Option Char) (rest : List Char) (mc : List Char × Caps),
      mc ∈ findallFrom ci re fuel prev rest →
      ∃ prev0 rest0 p2 r2, tryMatchAt ci re prev0 rest0 = some (mc.1, p2, r2, mc.2) := by
  intro fuel
  induction fuel with
  | zero =>
    intro prev rest mc hmem
    simp [findallFrom] at hmem
  | succ fuel ih =>
    intro prev rest mc hmem
    simp only [findallFrom] at hmem
    split at hmem
    next m p2 r2 caps ht =>
      split at hmem
      · cases hmem with
        | head => exact ⟨prev, rest, p2, r2, ht⟩
        | tail _ hmem2 =>
          cases rest with
          | nil => exact absurd hmem2 (List.not_mem_nil mc)
          | cons c cs => exact ih (some c) cs mc hmem2
      · cases hmem with
        | head => exact ⟨prev, rest, p2, r2, ht⟩
        | tail _ hmem2 => exact ih p2 r2 mc hmem2
    next ht =>
      cases rest with
      | nil => simp at hmem
      | cons c cs => exact ih (some c) cs mc hmem

/-- Whole-match findall membership. -/
theorem findallW_mem {ci : Bool} {re : Reg} {t m : List Char}
    (h : m ∈ findallW ci re t) :
    ∃ prev0 rest0 p2 r2 caps, tryMatchAt ci re prev0 rest0 = some (m, p2, r2, caps) := by
  unfold findallW at h
  obtain ⟨mc, hmc, hfst⟩ := List.mem_map.mp h
  obtain ⟨prev0, rest0, p2, r2, hm⟩ := findallFrom_mem _ none t mc hmc
  subst hfst
  exact ⟨prev0, rest0, p2, r2, mc.2, hm⟩

/-- onlyChars composition helpers. -/
theorem onlyChars_repN {ci : Bool} {P : Char → Bool} {r : Reg}
    (h : r.onlyChars ci P) : ∀ n, (repN r n).onlyChars ci P
  | 0 => trivial
  | n+1 => ⟨h, onlyChars_repN h n⟩

theorem onlyChars_optChain {ci : Bool} {P : Char → Bool} {r : Reg}
    (h : r.onlyChars ci P) : ∀ n, (optChain r n).onlyChars ci P
  | 0 => trivial
  | n+1 => ⟨h, onlyChars_optChain h n⟩

theorem onlyChars_repRange {ci : Bool} {P : Char → Bool} {r : Reg}
    (h : r.onlyChars ci P) (lo extra : Nat) : (repRange r lo extra).onlyChars ci P :=
  ⟨onlyChars_repN h lo, onlyChars_optChain h extra⟩

/-- The digit class only produces digit characters (plain matching). -/
theorem cls_digit_tail : (Reg.cls .digit).onlyChars false phoneTailChar := by
  intro c h
  simp only [CharClass.membCI, if_neg Bool.false_ne_true, CharClass.memb] at h
  simp [phoneTailChar, h]

/-- The `[\s.-]` class only produces phone-tail characters. -/
theorem cls_sep_tail : (Reg.cls ccPhoneSep).onlyChars false phoneTailChar := by
  intro c h
  simp only [CharClass.membCI, if_neg Bool.false_ne_true, ccPhoneSep, unionL,
    CharClass.memb, Bool.or_eq_true, decide_eq_true_eq] at h
  simp only [phoneTailChar, Bool.or_eq_true, decide_eq_true_eq]
  tauto

theorem cls_lparen_tail : (Reg.cls (.single '(')).onlyChars false phoneTailChar := by
  intro c h
  simp only [CharClass.membCI, if_neg Bool.false_ne_true, CharClass.memb,
    decide_eq_true_eq] at h
  subst h
  decide

theorem cls_rparen_tail : (Reg.cls (.single ')')).onlyChars false phoneTailChar := by
  intro c h
  simp only [CharClass.membCI, if_neg Bool.false_ne_true, CharClass.memb,
    decide_eq_true_eq] at h
  subst h
  decide

/-- The tail of the international pattern draws only on phone-tail characters. -/
theorem patPhoneIntlTail_only : patPhoneIntlTail.onlyChars false phoneTailChar :=
  ⟨onlyChars_repRange cls_digit_tail 1 2,
   cls_sep_tail,
   cls_lparen_tail,
   onlyChars_repRange cls_digit_tail 1 3,
   cls_rparen_tail,
   cls_sep_tail,
   onlyChars_repRange cls_digit_tail 1 3,
   cls_sep_tail,
   onlyChars_repRange cls_digit_tail 1 8⟩

theorem patPhoneUS_only : patPhoneUS.onlyChars false phoneTailChar :=
  ⟨cls_lparen_tail,
   onlyChars_repN cls_digit_tail 3,
   cls_rparen_tail,
   cls_sep_tail,
   onlyChars_repN cls_digit_tail 3,
   cls_sep_tail,
   onlyChars_repN cls_digit_tail 4⟩

theorem patPhoneTen_only : patPhoneTen.onlyChars false phoneTailChar :=
  ⟨trivial, onlyChars_repRange cls_digit_tail 10 1, trivial⟩

theorem patPhoneIN_only : patPhoneIN.onlyChars false phoneTailChar :=
  ⟨onlyChars_repN cls_digit_tail 5, cls_sep_tail, onlyChars_repN cls_digit_tail 5⟩

/-- phoneTailChar excludes the plus sign. -/
theorem phoneTailChar_ne_plus {c : Char} (h : phoneTailChar c = true) : c ≠ '+' := by
  intro hc
  subst hc
  exact absurd h (by decide)

/-- In a list of phone-tail characters, filtering for digit-or-plus keeps
exactly the digits. -/
theorem filter_digitOrPlus_of_tail {m : List Char} (h : m.all phoneTailChar = true) :
    (m.filter digitOrPlus).all isDigitAscii = true := by
  rw [List.all_eq_true]
  intro c hc
  obtain ⟨hcm, hdp⟩ := List.mem_filter.mp hc
  have htail : phoneTailChar c = true := List.all_eq_true.mp h c hcm
  have hne : c ≠ '+' := phoneTailChar_ne_plus htail
  simp only [digitOrPlus, Bool.or_eq_true, decide_eq_true_eq] at hdp
  rcases hdp with hd | hp
  · exact hd
  · exact absurd hp hne

/-- Per-candidate shape: whatever `acceptPhone` accepts is a plus sign
followed by 10–15 digits, provided the candidate is plus-free or consists
of a leading plus followed by plus-free text. -/
theorem acceptPhone_shape {m : List Char}
    (hm : m.all phoneTailChar = true ∨
      ∃ m', m = '+' :: m' ∧ m'.all phoneTailChar = true)
    {v : List Char} (hv : acceptPhone m = some v) :
    ∃ ds, v = '+' :: ds ∧ ds.all isDigitAscii = true ∧
      10 ≤ ds.length ∧ ds.length ≤ 15 := by
  rcases hm with hall | ⟨m', hm', hall⟩
  · -- no plus anywhere in the candidate
    have hdig : (m.filter digitOrPlus).all isDigitAscii = true :=
      filter_digitOrPlus_of_tail hall
    have hfix : (m.filter digitOrPlus).filter isDigitAscii = m.filter digitOrPlus :=
      List.filter_eq_self.mpr (fun c hc => List.all_eq_true.mp hdig c hc)
    have hsp : startsPlus (m.filter digitOrPlus) = false := by
      cases hnf : m.filter digitOrPlus with
      | nil => rfl
      | cons c cs =>
        have hc : c ∈ m.filter digitOrPlus := by rw [hnf]; exact List.mem_cons_self c cs
        obtain ⟨hcm, _⟩ := List.mem_filter.mp hc
        have hne : c ≠ '+' :=
          phoneTailChar_ne_plus (List.all_eq_true.mp hall c hcm)
        simp [startsPlus, hne]
    simp only [acceptPhone] at hv
    rw [hfix, hsp] at hv
    simp only [Bool.not_false] at hv
    split at hv
    next hcond =>
      split at hv
      next hlen10 =>
        simp only [Option.some.injEq] at hv
        have h1 : isDigitAscii '1' = true := by decide
        refine ⟨'1' :: m.filter digitOrPlus, hv.symm, ?_, ?_, ?_⟩
        · simp [List.all_cons, h1, hdig]
        · simp [hlen10.1]
        · simp [hlen10.1]
      next hne10 =>
        split at hv
        next =>
          simp only [Option.some.injEq] at hv
          exact ⟨m.filter digitOrPlus, hv.symm, hdig, hcond.1, hcond.2⟩
        next hsp2 =>
          exact absurd trivial hsp2
    next hcond =>
      exact absurd hv (by simp)
  · -- candidate of the form '+' :: plus-free text
    subst hm'
    have hdig : (m'.filter digitOrPlus).all isDigitAscii = true :=
      filter_digitOrPlus_of_tail hall
    have hplus : ('+' :: m').filter digitOrPlus = '+' :: m'.filter digitOrPlus := by
      simp [List.filter_cons, digitOrPlus]
    have hdigits : (('+' :: m').filter digitOrPlus).filter isDigitAscii =
        m'.filter digitOrPlus := by
      rw [hplus, List.filter_cons]
      have h0 : isDigitAscii '+' = false := by decide
      simp only [h0, Bool.false_eq_true, if_neg, ite_false]
      exact List.filter_eq_self.mpr (fun c hc => List.all_eq_true.mp hdig c hc)
    have hsp : startsPlus (('+' :: m').filter digitOrPlus) = true := by
      rw [hplus]
      simp [startsPlus]
    simp only [acceptPhone] at hv
    rw [hdigits, hsp] at hv
    simp only [Bool.not_true, Bool.false_eq_true, and_false, if_false] at hv
    split at hv
    next hrange =>
      simp only [Option.some.injEq] at hv
      rw [hplus] at hv
      exact ⟨m'.filter digitOrPlus, hv.symm, hdig, hrange.1, hrange.2⟩
    next =>
      exact absurd hv (by simp)

/-- Every phone candidate is plus-free text of phone characters, or a plus
followed by such text (pattern 1 starts with `\+`; patterns 2–4 cannot
match a plus at all). -/
theorem phoneCandidate_tail {t m : List Char} (h : m ∈ phoneCandidates t) :
    m.all phoneTailChar = true ∨
      ∃ m', m = '+' :: m' ∧ m'.all phoneTailChar = true := by
  unfold phoneCandidates at h
  obtain ⟨l, hl, hml⟩ := List.mem_flatten.mp h
  obtain ⟨p, hp, hpl⟩ := List.mem_map.mp hl
  subst hpl
  simp only [phonePatterns, List.mem_cons, List.not_mem_nil, or_false] at hp
  rcases hp with rfl | rfl | rfl | rfl
  · -- international pattern: '+' then tail
    obtain ⟨prev0, rest0, p2, r2, caps, ht⟩ := findallW_mem hml
    obtain ⟨c, m', hm, hmem, hall⟩ := tryMatchAt_seq_cls patPhoneIntlTail_only ht
    have hc : c = '+' := by
      simp only [CharClass.membCI, if_neg Bool.false_ne_true, CharClass.memb,
        decide_eq_true_eq] at hmem
      exact hmem
    subst hc
    exact Or.inr ⟨m', hm, hall⟩
  · obtain ⟨prev0, rest0, p2, r2, caps, ht⟩ := findallW_mem hml
    exact Or.inl (tryMatchAt_matched patPhoneUS_only ht)
  · obtain ⟨prev0, rest0, p2, r2, caps, ht⟩ := findallW_mem hml
    exact Or.inl (tryMatchAt_matched patPhoneTen_only ht)
  · obtain ⟨prev0, rest0, p2, r2, caps, ht⟩ := findallW_mem hml
    exact Or.inl (tryMatchAt_matched patPhoneIN_only ht)

theorem firstAcceptPhone_mem :
    ∀ (l : List (List Char)) (v : List Char), firstAcceptPhone l = some v →
      ∃ m ∈ l, acceptPhone m = some v := by
  intro l
  induction l with
  | nil =>
    intro v h
    simp [firstAcceptPhone] at h
  | cons m rest ih =>
    intro v h
    simp only [firstAcceptPhone] at h
    cases ha : acceptPhone m with
    | some w =>
      rw [ha] at h
      cases h
      exact ⟨m, List.mem_cons_self m rest, ha⟩
    | none =>
      rw [ha] at h
      obtain ⟨m2, hm2, ha2⟩ := ih v h
      exact ⟨m2, List.mem_cons_of_mem m hm2, ha2⟩

theorem collectPhones_mem :
    ∀ (l acc : List (List Char)) (v : List Char), v ∈ collectPhones l acc →
      v ∈ acc ∨ ∃ m ∈ l, acceptPhone m = some v := by
  intro l
  induction l with
  | nil =>
    intro acc v h
    simp only [collectPhones] at h
    exact Or.inl (List.mem_reverse.mp h)
  | cons m rest ih =>
    intro acc v h
    simp only [collectPhones] at h
    split at h
    next w ha =>
      split at h
      next =>
        rcases ih acc v h with hacc | ⟨m2, hm2, ha2⟩
        · exact Or.inl hacc
        · exact Or.inr ⟨m2, List.mem_cons_of_mem m hm2, ha2⟩
      next =>
        rcases ih (w :: acc) v h with hacc | ⟨m2, hm2, ha2⟩
        · rcases List.mem_cons.mp hacc with rfl | hacc2
          · exact Or.inr ⟨m, List.mem_cons_self m rest, ha⟩
          · exact Or.inl hacc2
        · exact Or.inr ⟨m2, List.mem_cons_of_mem m hm2, ha2⟩
    next ha =>
      rcases ih acc v h with hacc | ⟨m2, hm2, ha2⟩
      · exact Or.inl hacc
      · exact Or.inr ⟨m2, List.mem_cons_of_mem m hm2, ha2⟩

/-- C10. -/
theorem c10_phone_format :
    ∀ (s : String) (v : String),
      (extract_phone s = some v ∨ extract_alternate_phone s = some v) →
      ∃ ds, v.data = '+' :: ds ∧ ds.all isDigitAscii = true ∧
        10 ≤ ds.length ∧ ds.length ≤ 15 := by
  intro s v hv
  have main : ∀ w : List Char,
      (∃ m ∈ phoneCandidates s.data, acceptPhone m = some w) →
      v = String.mk w →
      ∃ ds, v.data = '+' :: ds ∧ ds.all isDigitAscii = true ∧
        10 ≤ ds.length ∧ ds.length ≤ 15 := by
    intro w ⟨m, hm, ha⟩ hvw
    obtain ⟨ds, hw, hall, h10, h15⟩ :=
      acceptPhone_shape (phoneCandidate_tail hm) ha
    refine ⟨ds, ?_, hall, h10, h15⟩
    rw [hvw, ← hw]
  rcases hv with h | h
  · unfold extract_phone at h
    cases hfa : firstAcceptPhone (phoneCandidates s.data) with
    | none => rw [hfa] at h; exact absurd h (by simp)
    | some w =>
      rw [hfa] at h
      have h2 : String.mk w = v := Option.some.inj h
      exact main w (firstAcceptPhone_mem _ w hfa) h2.symm
  · unfold extract_alternate_phone at h
    cases hcol : collectPhones (phoneCandidates s.data) [] with
    | nil => rw [hcol] at h; exact absurd h (by simp)
    | cons p1 rest =>
      cases rest with
      | nil => rw [hcol] at h; exact absurd h (by simp)
      | cons p2 rest2 =>
        rw [hcol] at h
        have h2 : some (String.mk p2) = some v := h
        simp only [Option.some.injEq] at h2
        have hp2mem : p2 ∈ collectPhones (phoneCandidates s.data) [] := by
          rw [hcol]
          exact List.mem_cons_of_mem p1 (List.mem_cons_self p2 rest2)
        rcases collectPhones_mem _ _ _ hp2mem with habs | ⟨m, hm, ha⟩
        · exact absurd habs (List.not_mem_nil _)
        · exact main p2 ⟨m, hm, ha⟩ h2.symm

/-- C10 witness. -/
theorem c10_phone_format_witness :
    ∃ ds, ("+15551234567" : String).data = '+' :: ds ∧ ds.all isDigitAscii = true ∧
      10 ≤ ds.length ∧ ds.length ≤ 15 :=
  c10_phone_format "(555) 123-4567" "+15551234567" (Or.inl (by decide))

/- ===================== clean_text idempotence (C8) ===================== -/

theorem splitWsAux_good :
    ∀ (l acc : List Char), (∀ c ∈ acc, isWS c = false) →
      ∀ tk ∈ splitWsAux l acc, tk ≠ [] ∧ ∀ c ∈ tk, isWS c = false := by
  intro l
  induction l with
  | nil =>
    intro acc hacc tk htk
    simp only [splitWsAux] at htk
    split at htk
    · exact absurd htk (List.not_mem_nil tk)
    · next hne =>
      rcases List.mem_singleton.mp htk with rfl
      constructor
      · intro hrev
        apply hne
        simpa using congrArg List.isEmpty hrev
      · intro c hc
        exact hacc c (List.mem_reverse.mp hc)
  | cons c cs ih =>
    intro acc hacc tk htk
    simp only [splitWsAux] at htk
    by_cases hw : isWS c = true
    · rw [if_pos hw] at htk
      split at htk
      · exact ih [] (by simp) tk htk
      · next hne =>
        rcases List.mem_cons.mp htk with rfl | htk2
        · constructor
          · intro hrev
            apply hne
            simpa using congrArg List.isEmpty hrev
          · intro d hd
            exact hacc d (List.mem_reverse.mp hd)
        · exact ih [] (by simp) tk htk2
    · rw [if_neg hw] at htk
      refine ih (c :: acc) ?_ tk htk
      intro d hd
      rcases List.mem_cons.mp hd with rfl | hd2
      · exact Bool.eq_false_iff.mpr hw
      · exact hacc d hd2

theorem splitWs_good (l : List Char) :
    ∀ tk ∈ splitWs l, tk ≠ [] ∧ ∀ c ∈ tk, isWS c = false :=
  splitWsAux_good l [] (by simp)

theorem splitWsAux_append :
    ∀ (t rest acc : List Char), (∀ c ∈ t, isWS c = false) →
      splitWsAux (t ++ rest) acc = splitWsAux rest (t.reverse ++ acc) := by
  intro t
  induction t with
  | nil => intro rest acc _; simp
  | cons c t' ih =>
    intro rest acc ht
    have hc : isWS c = false := ht c (List.mem_cons_self c t')
    rw [List.cons_append]
    rw [show splitWsAux (c :: (t' ++ rest)) acc = splitWsAux (t' ++ rest) (c :: acc) from by
      simp [splitWsAux, hc]]
    rw [ih rest (c :: acc) (fun d hd => ht d (List.mem_cons_of_mem c hd))]
    congr 1
    simp

theorem splitWs_joinSpace :
    ∀ (ts : List (List Char)),
      (∀ tk ∈ ts, tk ≠ [] ∧ ∀ c ∈ tk, isWS c = false) →
      splitWs (joinSpace ts) = ts := by
  intro ts
  induction ts with
  | nil => intro _; rfl
  | cons t ts' ih =>
    intro hgood
    have ht := hgood t (List.mem_cons_self t ts')
    cases ts' with
    | nil =>
      show splitWsAux (joinSep ' ' [t]) [] = [t]
      have : joinSep ' ' [t] = t := rfl
      rw [this, ← List.append_nil t, splitWsAux_append t [] [] ht.2]
      simp only [splitWsAux]
      rw [if_neg]
      · simp
      · simp only [List.append_nil, List.isEmpty_eq_true, List.reverse_eq_nil_iff]
        exact ht.1
    | cons t2 ts'' =>
      show splitWsAux (t ++ ' ' :: joinSep ' ' (t2 :: ts'')) [] = t :: t2 :: ts''
      rw [splitWsAux_append t _ [] ht.2]
      simp only [splitWsAux, isWS, if_pos]
      rw [if_pos (by decide)]
      rw [if_neg (by simp [List.isEmpty_eq_true, ht.1])]
      have := ih (fun tk htk => hgood tk (List.mem_cons_of_mem t htk))
      simp only [splitWs, joinSpace] at this
      rw [List.append_nil, List.reverse_reverse, this]

/-- Characters of a separator-join. -/
theorem mem_joinSep {sep : Char} :
    ∀ (L : List (List Char)) (c : Char), c ∈ joinSep sep L →
      c = sep ∨ ∃ l ∈ L, c ∈ l := by
  intro L
  induction L with
  | nil => intro c hc; exact absurd hc (List.not_mem_nil c)
  | cons l L' ih =>
    intro c hc
    cases L' with
    | nil => exact Or.inr ⟨l, List.mem_singleton.mpr rfl, hc⟩
    | cons l2 L'' =>
      have : joinSep sep (l :: l2 :: L'') = l ++ sep :: joinSep sep (l2 :: L'') := rfl
      rw [this] at hc
      rcases List.mem_append.mp hc with h1 | h2
      · exact Or.inr ⟨l, List.mem_cons_self l _, h1⟩
      · rcases List.mem_cons.mp h2 with rfl | h3
        · exact Or.inl rfl
        · rcases ih c h3 with hs | ⟨l3, hl3, hcl3⟩
          · exact Or.inl hs
          · exact Or.inr ⟨l3, List.mem_cons_of_mem l hl3, hcl3⟩

/-- Characters of a good line are blanks or non-whitespace. -/
theorem goodLine_chars {l : List Char} (h : GoodLine l) :
    ∀ c ∈ l, c = ' ' ∨ isWS c = false := by
  obtain ⟨toks, hgood, rfl⟩ := h
  intro c hc
  rcases mem_joinSep toks c hc with rfl | ⟨tk, htk, hctk⟩
  · exact Or.inl rfl
  · exact Or.inr ((hgood tk htk).2 c hctk)

/-- A good line never contains a newline. -/
theorem goodLine_no_nl {l : List Char} (h : GoodLine l) : '\n' ∉ l := by
  intro hmem
  rcases goodLine_chars h '\n' hmem with heq | hws
  · exact absurd heq (by decide)
  · exact absurd hws (by decide)

/-- A good line never contains a carriage return. -/
theorem goodLine_no_cr {l : List Char} (h : GoodLine l) : '\r' ∉ l := by
  intro hmem
  rcases goodLine_chars h '\r' hmem with heq | hws
  · exact absurd heq (by decide)
  · exact absurd hws (by decide)

/-- A nonempty good token list joins to text with a head character. -/
theorem joinSpace_head :
    ∀ (toks : List (List Char)), toks ≠ [] →
      (∀ tk ∈ toks, tk ≠ [] ∧ ∀ c ∈ tk, isWS c = false) →
      ∃ c, (joinSpace toks).head? = some c ∧ isWS c = false := by
  intro toks hne hgood
  cases toks with
  | nil => exact absurd rfl hne
  | cons t ts =>
    have ht := hgood t (List.mem_cons_self t ts)
    obtain ⟨c, cs, rfl⟩ := List.exists_cons_of_ne_nil ht.1
    have hc : isWS c = false := ht.2 c (List.mem_cons_self c cs)
    cases ts with
    | nil => exact ⟨c, rfl, hc⟩
    | cons t2 ts' =>
      refine ⟨c, ?_, hc⟩
      show ((c :: cs) ++ ' ' :: joinSep ' ' (t2 :: ts')).head? = some c
      rfl

theorem joinSpace_ne_nil (toks : List (List Char)) (hne : toks ≠ [])
    (hgood : ∀ tk ∈ toks, tk ≠ [] ∧ ∀ c ∈ tk, isWS c = false) :
    joinSpace toks ≠ [] := by
  obtain ⟨c, hc, _⟩ := joinSpace_head toks hne hgood
  intro h
  rw [h] at hc
  exact absurd hc (by simp)

/-- A nonempty good token list joins to text with a non-whitespace last
character. -/
theorem joinSpace_getLast :
    ∀ (toks : List (List Char)), toks ≠ [] →
      (∀ tk ∈ toks, tk ≠ [] ∧ ∀ c ∈ tk, isWS c = false) →
      ∃ c, (joinSpace toks).getLast? = some c ∧ isWS c = false := by
  intro toks
  induction toks with
  | nil => intro hne _; exact absurd rfl hne
  | cons t ts ih =>
    intro _ hgood
    have ht := hgood t (List.mem_cons_self t ts)
    cases ts with
    | nil =>
      obtain ⟨c, cs, hrev⟩ :=
        List.exists_cons_of_ne_nil (mt List.reverse_eq_nil_iff.mp ht.1)
      refine ⟨c, ?_, ?_⟩
      · show (t : List Char).getLast? = some c
        rw [← List.head?_reverse, hrev]
        rfl
      · refine ht.2 c (List.mem_reverse.mp ?_)
        rw [hrev]
        exact List.mem_cons_self c cs
    | cons t2 ts' =>
      obtain ⟨c, hc, hw⟩ := ih (List.cons_ne_nil t2 ts')
        (fun tk htk => hgood tk (List.mem_cons_of_mem t htk))
      refine ⟨c, ?_, hw⟩
      have hJne : joinSpace (t2 :: ts') ≠ [] :=
        joinSpace_ne_nil _ (List.cons_ne_nil t2 ts')
          (fun tk htk => hgood tk (List.mem_cons_of_mem t htk))
      obtain ⟨d, ds, hJ⟩ := List.exists_cons_of_ne_nil hJne
      show ((t : List Char) ++ ' ' :: joinSpace (t2 :: ts')).getLast? = some c
      rw [List.getLast?_append, hJ, List.getLast?_cons_cons, ← hJ, hc]
      rfl

/-- A nonempty good line starts with a non-whitespace character (GoodLine form). -/
theorem goodLine_head {l : List Char} (h : GoodLine l) (hne : l ≠ []) :
    ∃ c, l.head? = some c ∧ isWS c = false := by
  obtain ⟨toks, hgood, rfl⟩ := h
  refine joinSpace_head toks ?_ hgood
  intro htoks
  subst htoks
  exact hne rfl

/-- A nonempty good line ends with a non-whitespace character (GoodLine form). -/
theorem goodLine_getLast {l : List Char} (h : GoodLine l) (hne : l ≠ []) :
    ∃ c, l.getLast? = some c ∧ isWS c = false := by
  obtain ⟨toks, hgood, rfl⟩ := h
  refine joinSpace_getLast toks ?_ hgood
  intro htoks
  subst htoks
  exact hne rfl

/-- splitNl of newline-free text is the single line. -/
theorem splitNl_no_nl : ∀ (l : List Char), '\n' ∉ l → splitNl l = [l] := by
  intro l
  induction l with
  | nil => intro _; rfl
  | cons c cs ih =>
    intro h
    have hc : ¬(c = '\n') := fun heq => h (heq ▸ List.mem_cons_self c cs)
    have hcs : '\n' ∉ cs := fun hmem => h (List.mem_cons_of_mem c hmem)
    simp only [splitNl, if_neg hc, ih hcs]

/-- splitNl across a leading newline-free line. -/
theorem splitNl_append : ∀ (a r : List Char), '\n' ∉ a →
    splitNl (a ++ '\n' :: r) = a :: splitNl r := by
  intro a
  induction a with
  | nil =>
    intro r _
    simp [splitNl]
  | cons c a' ih =>
    intro r h
    have hc : ¬(c = '\n') := fun heq => h (heq ▸ List.mem_cons_self c a')
    have ha' : '\n' ∉ a' := fun hmem => h (List.mem_cons_of_mem c hmem)
    rw [List.cons_append]
    rw [show splitNl (c :: (a' ++ '\n' :: r)) =
        (match splitNl (a' ++ '\n' :: r) with
         | [] => [[c]]
         | l :: rest => (c :: l) :: rest) from by simp [splitNl, hc]]
    rw [ih r ha']

/-- splitNl inverts joinNl on newline-free line lists. -/
theorem splitNl_joinNl :
    ∀ (M : List (List Char)), M ≠ [] → (∀ l ∈ M, '\n' ∉ l) →
      splitNl (joinNl M) = M := by
  intro M
  induction M with
  | nil => intro hne _; exact absurd rfl hne
  | cons l M' ih =>
    intro _ hnl
    cases M' with
    | nil =>
      show splitNl l = [l]
      exact splitNl_no_nl l (hnl l (List.mem_cons_self l []))
    | cons l2 M'' =>
      have hstep : joinNl (l :: l2 :: M'') = l ++ '\n' :: joinNl (l2 :: M'') := rfl
      rw [hstep, splitNl_append l _ (hnl l (List.mem_cons_self l _)),
        ih (List.cons_ne_nil l2 M'') (fun x hx => hnl x (List.mem_cons_of_mem l hx))]

/-- normNewlines is the identity on carriage-return-free text. -/
theorem normNewlines_id : ∀ (l : List Char), '\r' ∉ l → normNewlines l = l := by
  intro l
  induction l with
  | nil => intro _; rfl
  | cons c cs ih =>
    intro h
    have hc : ¬(c = '\r') := fun heq => h (heq ▸ List.mem_cons_self c cs)
    have hcs : '\r' ∉ cs := fun hmem => h (List.mem_cons_of_mem c hmem)
    rw [show normNewlines (c :: cs) = c :: normNewlines cs from by
      rw [normNewlines.eq_def]
      split <;> simp_all]
    rw [ih hcs]

/-- Every line collapseBlanks emits is empty or a space-join of one of the
input token lists. -/
theorem collapseBlanks_mem :
    ∀ (TL : List (List (List Char))) (b : Bool) (l : List Char),
      l ∈ collapseBlanks TL b →
      l = [] ∨ ∃ toks ∈ TL, toks ≠ [] ∧ l = joinSpace toks := by
  intro TL
  induction TL with
  | nil => intro b l h; simp [collapseBlanks] at h
  | cons toks rest ih =>
    intro b l h
    simp only [collapseBlanks] at h
    split at h
    · -- blank line
      split at h
      · rcases ih true l h with h0 | ⟨tk, htk, hne, he⟩
        · exact Or.inl h0
        · exact Or.inr ⟨tk, List.mem_cons_of_mem _ htk, hne, he⟩
      · rcases List.mem_cons.mp h with rfl | h2
        · exact Or.inl rfl
        · rcases ih true l h2 with h0 | ⟨tk, htk, hne, he⟩
          · exact Or.inl h0
          · exact Or.inr ⟨tk, List.mem_cons_of_mem _ htk, hne, he⟩
    · next ts hne =>
      rcases List.mem_cons.mp h with rfl | h2
      · exact Or.inr ⟨toks, List.mem_cons_self toks rest, hne, rfl⟩
      · rcases ih false l h2 with h0 | ⟨tk, htk, hne2, he⟩
        · exact Or.inl h0
        · exact Or.inr ⟨tk, List.mem_cons_of_mem _ htk, hne2, he⟩

/-- dedupConsec keeps only elements of its input. -/
theorem dedupConsec_subset :
    ∀ (L : List (List Char)) (l : List Char), l ∈ dedupConsec L → l ∈ L := by
  intro L
  induction L with
  | nil => intro l h; simp [dedupConsec] at h
  | cons a rest ih =>
    intro l h
    cases rest with
    | nil =>
      simp only [dedupConsec] at h
      exact h
    | cons b rest' =>
      simp only [dedupConsec] at h
      split at h
      · exact List.mem_cons_of_mem a (ih l h)
      · rcases List.mem_cons.mp h with rfl | h2
        · exact List.mem_cons_self l _
        · exact List.mem_cons_of_mem a (ih l h2)

/-- dedupConsec of a cons starts with the same head. -/
theorem dedupConsec_head :
    ∀ (a : List Char) (L : List (List Char)),
      (dedupConsec (a :: L)).head? = some a := by
  intro a L
  induction L generalizing a with
  | nil => rfl
  | cons b rest ih =>
    simp only [dedupConsec]
    split
    · next heq => rw [heq]; exact ih b
    · rfl

/-- dedupConsec produces no two adjacent duplicates. -/
theorem dedupConsec_chain :
    ∀ (L : List (List Char)), List.Chain' (· ≠ ·) (dedupConsec L) := by
  intro L
  induction L with
  | nil => simp [dedupConsec]
  | cons a rest ih =>
    cases rest with
    | nil => simp [dedupConsec]
    | cons b rest' =>
      simp only [dedupConsec]
      split
      · exact ih
      · next hne =>
        rw [List.chain'_cons']
        refine ⟨?_, ih⟩
        intro y hy
        rw [dedupConsec_head b rest'] at hy
        cases hy
        exact hne

/-- dedupConsec is the identity on adjacent-duplicate-free lists. -/
theorem dedupConsec_fixed :
    ∀ (L : List (List Char)), List.Chain' (· ≠ ·) L → dedupConsec L = L := by
  intro L
  induction L with
  | nil => intro _; rfl
  | cons a rest ih =>
    intro hch
    cases rest with
    | nil => rfl
    | cons b rest' =>
      simp only [dedupConsec]
      rw [List.chain'_cons] at hch
      split
      · next heq => exact absurd heq hch.1
      · rw [ih hch.2]

/-- collapseBlanks is the identity on good line lists once each line is
re-split into its tokens. -/
theorem collapseBlanks_fixed :
    ∀ (M : List (List Char)) (b : Bool),
      (∀ l ∈ M, GoodLine l) → List.Chain' (· ≠ ·) M →
      (b = true → M.head? ≠ some []) →
      collapseBlanks (M.map splitWs) b = M := by
  intro M
  induction M with
  | nil => intro b _ _ _; rfl
  | cons l M' ih =>
    intro b hgood hch hflag
    obtain ⟨toks, htg, hlt⟩ := hgood l (List.mem_cons_self l M')
    have hsw : splitWs l = toks := by rw [hlt]; exact splitWs_joinSpace toks htg
    have hmap : (l :: M').map splitWs = toks :: M'.map splitWs := by simp [hsw]
    rw [hmap]
    have hch' := List.chain'_cons'.mp hch
    have hgt : ∀ x ∈ M', GoodLine x := fun x hx => hgood x (List.mem_cons_of_mem l hx)
    cases toks with
    | nil =>
      have hle : l = [] := by rw [hlt]; rfl
      have hb : b = false := by
        cases b with
        | false => rfl
        | true => exact absurd (show (l :: M').head? = some [] by rw [hle]; rfl) (hflag rfl)
      subst hb
      have h2 : collapseBlanks (M'.map splitWs) true = M' := by
        refine ih true hgt hch'.2 ?_
        intro _ hh
        exact (hch'.1 [] (Option.mem_def.mpr hh)) hle
      have hstep : collapseBlanks ([] :: M'.map splitWs) false
          = [] :: collapseBlanks (M'.map splitWs) true := rfl
      rw [hstep, h2, hle]
    | cons t ts =>
      have hstep : collapseBlanks ((t :: ts) :: M'.map splitWs) b
          = joinSpace (t :: ts) :: collapseBlanks (M'.map splitWs) false := rfl
      rw [hstep]
      have h2 : collapseBlanks (M'.map splitWs) false = M' := by
        refine ih false hgt hch'.2 ?_
        intro hfa
        exact Bool.noConfusion hfa
      rw [h2, ← hlt]

/-- Left-stripping a newline-join of good lines drops exactly the leading
blank lines. -/
theorem dropWhile_isWS_joinNl :
    ∀ (M : List (List Char)), (∀ l ∈ M, GoodLine l) →
      (joinNl M).dropWhile isWS = joinNl (dropLeadEmp M) := by
  intro M
  induction M with
  | nil => intro _; rfl
  | cons l M' ih =>
    intro hgood
    have hgt : ∀ x ∈ M', GoodLine x := fun x hx => hgood x (List.mem_cons_of_mem l hx)
    by_cases hle : l = []
    · subst hle
      cases M' with
      | nil => rfl
      | cons l2 M'' =>
        have h1 : joinNl ([] :: l2 :: M'') = '\n' :: joinNl (l2 :: M'') := rfl
        have h2 : dropLeadEmp ([] :: l2 :: M'') = dropLeadEmp (l2 :: M'') := rfl
        rw [h1, h2, List.dropWhile_cons_of_pos (by decide), ih hgt]
    · obtain ⟨c, hc, hw⟩ := goodLine_head (hgood l (List.mem_cons_self l M')) hle
      obtain ⟨c0, cs, rfl⟩ := List.exists_cons_of_ne_nil hle
      have hc0 : isWS c0 = false := by
        rw [List.head?_cons] at hc
        rw [Option.some.inj hc]
        exact hw
      cases M' with
      | nil =>
        show (c0 :: cs).dropWhile isWS = joinNl (dropLeadEmp [c0 :: cs])
        rw [List.dropWhile_cons_of_neg (by simp [hc0])]
        rfl
      | cons l2 M'' =>
        have h1 : joinNl ((c0 :: cs) :: l2 :: M'')
            = c0 :: (cs ++ '\n' :: joinNl (l2 :: M'')) := rfl
        rw [h1, List.dropWhile_cons_of_neg (by simp [hc0])]
        rfl

/-- The head of a dropWhile residue fails the predicate. -/
theorem dropWhile_head_false {α : Type} {p : α → Bool} {l : List α} {a : α}
    (h : (l.dropWhile p).head? = some a) : p a = false := by
  have hm := List.head?_dropWhile_not p l
  rw [h] at hm
  exact hm

/-- dropWhile is idempotent. -/
theorem dropWhile_idem {α : Type} (p : α → Bool) (l : List α) :
    (l.dropWhile p).dropWhile p = l.dropWhile p := by
  cases hd : l.dropWhile p with
  | nil => rfl
  | cons a t =>
    have ha : p a = false := dropWhile_head_false (by rw [hd]; rfl)
    rw [List.dropWhile_cons_of_neg (by simp [ha])]

/-- A list whose head fails the predicate is fixed by dropWhile. -/
theorem dropWhile_eq_self_of_head {α : Type} {p : α → Bool} :
    ∀ {l : List α}, (∀ a, l.head? = some a → p a = false) → l.dropWhile p = l
  | [], _ => rfl
  | a :: _, h => List.dropWhile_cons_of_neg (by simp [h a rfl])

/-- Removing trailing blanks from a cons whose tail is all blank. -/
theorem dropTrailEmp_cons_nil (l : List Char) (M : List (List Char))
    (h : dropTrailEmp M = []) : dropTrailEmp (l :: M) = dropTrailEmp [l] := by
  have h' : M.reverse.dropWhile (fun x => x.isEmpty) = [] := by
    simpa [dropTrailEmp] using h
  simp only [dropTrailEmp, List.reverse_cons]
  rw [List.dropWhile_append, if_pos (by simp [h'])]
  simp

/-- Removing trailing blanks from a cons whose tail keeps a line. -/
theorem dropTrailEmp_cons_ne (l : List Char) (M : List (List Char))
    (h : dropTrailEmp M ≠ []) : dropTrailEmp (l :: M) = l :: dropTrailEmp M := by
  have h' : M.reverse.dropWhile (fun x => x.isEmpty) ≠ [] := by
    simp only [dropTrailEmp, ne_eq, List.reverse_eq_nil_iff] at h
    exact h
  simp only [dropTrailEmp, List.reverse_cons]
  rw [List.dropWhile_append, if_neg (by simp [h'])]
  simp

/-- A nonempty dropTrailEmp residue ends in a nonblank line. -/
theorem dropTrailEmp_getLast {M : List (List Char)} {x : List Char}
    (h : (dropTrailEmp M).getLast? = some x) : x ≠ [] := by
  simp only [dropTrailEmp, List.getLast?_reverse] at h
  have hfalse := dropWhile_head_false h
  intro hx
  rw [hx] at hfalse
  exact absurd hfalse (by decide)

/-- joinNl is empty only for the empty list or the single blank line. -/
theorem joinNl_eq_nil : ∀ (M : List (List Char)), joinNl M = [] → M = [] ∨ M = [[]] := by
  intro M h
  cases M with
  | nil => exact Or.inl rfl
  | cons l M' =>
    cases M' with
    | nil =>
      right
      have hl : l = [] := h
      rw [hl]
    | cons l2 M'' =>
      exfalso
      have hstep : joinNl (l :: l2 :: M'') = l ++ '\n' :: joinNl (l2 :: M'') := rfl
      rw [hstep] at h
      exact absurd h (by simp)

/-- Right-stripping a single good line. -/
theorem stripR_single {l : List Char} (h : GoodLine l) :
    (l.reverse.dropWhile isWS).reverse = joinNl (dropTrailEmp [l]) := by
  by_cases hle : l = []
  · subst hle; rfl
  · obtain ⟨c, hc, hw⟩ := goodLine_getLast h hle
    have hrev : l.reverse.head? = some c := by rw [List.head?_reverse]; exact hc
    obtain ⟨c0, cs, hr⟩ := List.exists_cons_of_ne_nil (show l.reverse ≠ [] by simp [hle])
    have hc0 : isWS c0 = false := by
      rw [hr] at hrev
      rw [← Option.some.inj hrev] at hw
      exact hw
    have hTE : dropTrailEmp [l] = [l] := by
      simp only [dropTrailEmp]
      rw [show ([l] : List (List Char)).reverse = [l] from rfl]
      rw [List.dropWhile_cons_of_neg (by simp [hle])]
      rfl
    rw [hTE]
    show (l.reverse.dropWhile isWS).reverse = l
    rw [hr, List.dropWhile_cons_of_neg (by simp [hc0]), ← hr, List.reverse_reverse]

/-- Right-stripping a newline-join of good lines drops exactly the trailing
blank lines. -/
theorem stripR_joinNl :
    ∀ (M : List (List Char)), (∀ l ∈ M, GoodLine l) →
      ((joinNl M).reverse.dropWhile isWS).reverse = joinNl (dropTrailEmp M) := by
  intro M
  induction M with
  | nil => intro _; rfl
  | cons l M' ih =>
    intro hgood
    have hgt : ∀ x ∈ M', GoodLine x := fun x hx => hgood x (List.mem_cons_of_mem l hx)
    have hgl : GoodLine l := hgood l (List.mem_cons_self l M')
    cases M' with
    | nil => exact stripR_single hgl
    | cons l2 M'' =>
      have hJ : joinNl (l :: l2 :: M'') = l ++ '\n' :: joinNl (l2 :: M'') := rfl
      rw [hJ]
      have hrev : (l ++ '\n' :: joinNl (l2 :: M'')).reverse
          = (joinNl (l2 :: M'')).reverse ++ '\n' :: l.reverse := by
        simp
      rw [hrev, List.dropWhile_append]
      by_cases hD : ((joinNl (l2 :: M'')).reverse.dropWhile isWS) = []
      · rw [if_pos (by simp [hD])]
        have hT : dropTrailEmp (l2 :: M'') = [] := by
          by_contra hTne
          have hih := ih hgt
          rw [hD] at hih
          rcases joinNl_eq_nil _ hih.symm with h0 | h1
          · exact hTne h0
          · have hlast : (dropTrailEmp (l2 :: M'')).getLast? = some [] := by
              rw [h1]; rfl
            exact dropTrailEmp_getLast hlast rfl
        rw [dropTrailEmp_cons_nil l (l2 :: M'') hT]
        rw [List.dropWhile_cons_of_pos (by decide)]
        exact stripR_single hgl
      · rw [if_neg (by simp [hD])]
        have hT : dropTrailEmp (l2 :: M'') ≠ [] := by
          intro h0
          apply hD
          have hih := ih hgt
          rw [h0] at hih
          have hrr := congrArg List.reverse hih
          rw [List.reverse_reverse] at hrr
          exact hrr
        rw [dropTrailEmp_cons_ne l (l2 :: M'') hT]
        obtain ⟨x, xs, hx⟩ := List.exists_cons_of_ne_nil hT
        rw [hx]
        have hJ2 : joinNl (l :: x :: xs) = l ++ '\n' :: joinNl (x :: xs) := rfl
        rw [hJ2, ← hx]
        rw [List.reverse_append]
        rw [ih hgt]
        simp

/-- dropLeadEmp keeps only lines of its input. -/
theorem mem_dropLeadEmp {M : List (List Char)} {x : List Char}
    (h : x ∈ dropLeadEmp M) : x ∈ M :=
  (List.dropWhile_sublist _).subset h

/-- dropTrailEmp keeps only lines of its input. -/
theorem mem_dropTrailEmp {M : List (List Char)} {x : List Char}
    (h : x ∈ dropTrailEmp M) : x ∈ M := by
  simp only [dropTrailEmp, List.mem_reverse] at h
  exact List.mem_reverse.mp ((List.dropWhile_sublist _).subset h)

/-- Python strip of a newline-join of good lines removes exactly the blank
boundary lines. -/
theorem stripBoth_joinNl (M : List (List Char)) (hgood : ∀ l ∈ M, GoodLine l) :
    stripBoth (joinNl M) = joinNl (dropTrailEmp (dropLeadEmp M)) := by
  simp only [stripBoth]
  rw [dropWhile_isWS_joinNl M hgood]
  exact stripR_joinNl (dropLeadEmp M) (fun l hl => hgood l (mem_dropLeadEmp hl))

/-- Every line the clean_text pipeline builds is good. -/
theorem canonLines_good (t : List Char) : ∀ l ∈ canonLines t, GoodLine l := by
  intro l hl
  have hl2 := dedupConsec_subset _ l hl
  rcases collapseBlanks_mem _ _ l hl2 with h0 | ⟨toks, htoks, _, he⟩
  · exact ⟨[], fun tk htk => absurd htk (List.not_mem_nil tk), h0⟩
  · obtain ⟨line, _, rfl⟩ := List.mem_map.mp htoks
    exact ⟨splitWs line, splitWs_good line, he⟩

/-- The clean_text pipeline emits no two equal adjacent lines. -/
theorem canonLines_chain (t : List Char) : List.Chain' (· ≠ ·) (canonLines t) :=
  dedupConsec_chain _

/-- dropTrailEmp is idempotent. -/
theorem dropTrailEmp_idem (M : List (List Char)) :
    dropTrailEmp (dropTrailEmp M) = dropTrailEmp M := by
  simp only [dropTrailEmp, List.reverse_reverse]
  rw [dropWhile_idem]

/-- cleanTextL through the canonical line list. -/
theorem cleanTextL_eq (t : List Char) :
    cleanTextL t = joinNl (dropTrailEmp (dropLeadEmp (canonLines t))) := by
  by_cases ht : t = []
  · subst ht; rfl
  · simp only [cleanTextL]
    rw [if_neg (by simp [ht])]
    exact stripBoth_joinNl (canonLines t) (canonLines_good t)

/-- cleanTextL is the identity on canonical output: a newline-join of good,
adjacent-distinct lines with nonblank first and last line. -/
theorem cleanTextL_joinNl (M : List (List Char))
    (hgood : ∀ l ∈ M, GoodLine l) (hch : List.Chain' (· ≠ ·) M)
    (h1 : dropLeadEmp M = M) (h2 : dropTrailEmp M = M) :
    cleanTextL (joinNl M) = joinNl M := by
  cases M with
  | nil => rfl
  | cons l M' =>
    have hlne : l ≠ [] := by
      intro hle
      subst hle
      have hlen := congrArg List.length h1
      simp only [dropLeadEmp] at hlen
      rw [List.dropWhile_cons_of_pos (by rfl)] at hlen
      have hle2 := (List.dropWhile_sublist (fun l : List Char => l.isEmpty) (l := M')).length_le
      rw [List.length_cons] at hlen
      omega
    have hJhead : ∃ c, (joinNl (l :: M')).head? = some c ∧ isWS c = false := by
      obtain ⟨c, hc, hw⟩ := goodLine_head (hgood l (List.mem_cons_self l M')) hlne
      refine ⟨c, ?_, hw⟩
      cases M' with
      | nil => exact hc
      | cons l2 M'' =>
        have hstep : joinNl (l :: l2 :: M'') = l ++ '\n' :: joinNl (l2 :: M'') := rfl
        rw [hstep, List.head?_append, hc]
        rfl
    have hJne : (joinNl (l :: M')).isEmpty = false := by
      obtain ⟨c, hc, _⟩ := hJhead
      cases hJ : joinNl (l :: M') with
      | nil => rw [hJ] at hc; exact absurd hc (by simp)
      | cons a as => rfl
    have hnocr : '\r' ∉ joinNl (l :: M') := by
      intro hcr
      rcases mem_joinSep _ _ hcr with hs | ⟨line, hline, hcl⟩
      · exact absurd hs (by decide)
      · exact goodLine_no_cr (hgood line hline) hcl
    have hnonl : ∀ line ∈ (l :: M'), '\n' ∉ line :=
      fun line hl => goodLine_no_nl (hgood line hl)
    simp only [cleanTextL]
    rw [if_neg (by simp [hJne])]
    rw [normNewlines_id _ hnocr]
    rw [splitNl_joinNl (l :: M') (by simp) hnonl]
    rw [collapseBlanks_fixed (l :: M') false hgood hch (by intro h; exact Bool.noConfusion h)]
    rw [dedupConsec_fixed (l :: M') hch]
    rw [stripBoth_joinNl (l :: M') hgood, h1, h2]

/-- A second clean_text pass changes nothing (character-list form). -/
theorem cleanTextL_idem (t : List Char) : cleanTextL (cleanTextL t) = cleanTextL t := by
  rw [cleanTextL_eq t]
  have hpre : dropTrailEmp (dropLeadEmp (canonLines t)) <+: dropLeadEmp (canonLines t) := by
    refine ⟨((dropLeadEmp (canonLines t)).reverse.takeWhile (fun x => x.isEmpty)).reverse, ?_⟩
    show ((dropLeadEmp (canonLines t)).reverse.dropWhile (fun x => x.isEmpty)).reverse ++ _ = _
    rw [← List.reverse_append, List.takeWhile_append_dropWhile, List.reverse_reverse]
  apply cleanTextL_joinNl
  · intro x hx
    exact canonLines_good t x (mem_dropLeadEmp (mem_dropTrailEmp hx))
  · have hY : List.Chain' (· ≠ ·) (dropLeadEmp (canonLines t)) :=
      (canonLines_chain t).suffix (List.dropWhile_suffix _)
    obtain ⟨tl, htl⟩ := hpre
    rw [← htl] at hY
    exact (List.chain'_append.mp hY).1
  · show List.dropWhile (fun l => l.isEmpty) (dropTrailEmp (dropLeadEmp (canonLines t)))
        = dropTrailEmp (dropLeadEmp (canonLines t))
    apply dropWhile_eq_self_of_head
    intro a ha
    obtain ⟨tl, htl⟩ := hpre
    have hYhead : (dropLeadEmp (canonLines t)).head? = some a := by
      rw [← htl, List.head?_append, ha]
      rfl
    exact dropWhile_head_false (by simpa [dropLeadEmp] using hYhead)
  · exact dropTrailEmp_idem _

/-- C8: clean_text applied twice equals clean_text applied once. -/
theorem c8_clean_text_idempotent (s : String) :
    clean_text (clean_text s) = clean_text s := by
  show String.mk (cleanTextL (cleanTextL s.data)) = String.mk (cleanTextL s.data)
  exact congrArg String.mk (cleanTextL_idem s.data)
